import Mathlib

/-!
# argnewline: the edit collection and the splice loop of `processFile`

A shallow embedding of `src/main.go`.  The program parses one Go file, walks
the syntax tree, collects one `modification` for every one-line parameter or
argument list, splices the replacements into the text from the last collected
modification to the first, formats the result and writes it back.  In
directory mode `main` first collects the files with `filepath.Walk`, leaving
out every directory named `vendor`.

Conventions of the embedding

* A Go `string` / `[]byte` is the list of its bytes (`Text`).  In every
  concrete text below each byte is ASCII and is written as a `Char`.
* `token.Pos` is a natural number, `0` being `token.NoPos`.
* The Go standard library (`go/parser`, `go/printer`, `go/format`,
  `strings.TrimSpace`) is not part of the repository.  It is a parameter
  (`Lib`) of every definition that calls it.
* A slice expression that is out of range panics; the embedding returns `none`.
-/

namespace Argnewline

/-- A Go string as the list of its bytes. -/
abbrev Text := List Char

/-- The type `token.Pos`; `0` is `token.NoPos`. -/
abbrev Pos := Nat

/-- The method `token.Pos.IsValid`. -/
def Pos.IsValid (p : Pos) : Bool := p != 0

/-- The type `token.Position`, reduced to the two fields the program reads. -/
structure Position where
  Offset : Nat
  Line : Nat
deriving DecidableEq, Repr

/-- A `*token.FileSet` as seen through its method `Position`. -/
abbrev FileSet := Pos → Position

/-- The struct `modification` of `main.go`, lines 17-21. -/
structure modification where
  start : Nat
  end_ : Nat
  replacement : Text
deriving DecidableEq, Repr

/-! ## Syntax trees (`go/ast`) -/

mutual
/-- The interface `ast.Node` with the dynamic types the program distinguishes.
Every other node type is `Other`, with its children in the order of `ast.Walk`.
Comment groups and struct tags are leaves that match none of the three cases
of the walk and are left out. -/
inductive Node where
  | File (Name : Node) (Decls : List Node)
  | Ident (NamePos : Pos) (Name : Text)
  | BasicLit (ValuePos : Pos) (Value : Text)
  | FuncDecl (Recv : Option FieldList) (Name : Node) (Type_ : FuncType) (Body : Option Node)
  | CallExpr (Fun : Node) (Lparen : Pos) (Args : List Node) (Ellipsis : Pos) (Rparen : Pos)
  | InterfaceType (Methods : FieldList)
  | ofFuncType (t : FuncType)
  | ofFieldList (l : FieldList)
  | ofField (f : Field)
  | Other (kind : String) (children : List Node)
/-- The struct `ast.FieldList`. -/
inductive FieldList where
  | mk (Opening : Pos) (List_ : List Field) (Closing : Pos)
/-- The struct `ast.Field`. -/
inductive Field where
  | mk (Names : List Node) (Type_ : Node)
/-- The struct `ast.FuncType`. -/
inductive FuncType where
  | mk (TypeParams : Option FieldList) (Params : Option FieldList) (Results : Option FieldList)
end

/-- One step of `ast.Inspect`: call `f` on the node; when it answers `true`
walk the children and call `f(nil)` afterwards. -/
def visit {σ : Type} (f : σ → Option Node → σ × Bool) (s : σ) (n : Node)
    (children : σ → σ) : σ :=
  let r := f s (some n)
  if r.2 then (f (children r.1) none).1 else r.1

mutual
/-- The function `ast.Inspect(n, f)`, the state of the closure `f` made explicit.
Children are walked in the order of `ast.Walk`. -/
def Inspect {σ : Type} (f : σ → Option Node → σ × Bool) (s : σ) : Node → σ
  | .File nm ds => visit f s (.File nm ds) fun s => InspectList f (Inspect f s nm) ds
  | .Ident p n => visit f s (.Ident p n) id
  | .BasicLit p v => visit f s (.BasicLit p v) id
  | .FuncDecl recv nm ty body => visit f s (.FuncDecl recv nm ty body) fun s =>
      InspectOpt f (InspectFuncType f (Inspect f (InspectOptFieldList f s recv) nm) ty) body
  | .CallExpr fn l args e r => visit f s (.CallExpr fn l args e r) fun s =>
      InspectList f (Inspect f s fn) args
  | .InterfaceType ms => visit f s (.InterfaceType ms) fun s => InspectFieldList f s ms
  | .ofFuncType t => InspectFuncType f s t
  | .ofFieldList l => InspectFieldList f s l
  | .ofField x => InspectField f s x
  | .Other k cs => visit f s (.Other k cs) fun s => InspectList f s cs
/-- Walk of a list of nodes, first to last. -/
def InspectList {σ : Type} (f : σ → Option Node → σ × Bool) (s : σ) : List Node → σ
  | [] => s
  | n :: ns => InspectList f (Inspect f s n) ns
/-- Walk of a node that may be nil. -/
def InspectOpt {σ : Type} (f : σ → Option Node → σ × Bool) (s : σ) : Option Node → σ
  | none => s
  | some n => Inspect f s n
/-- Walk of a `*ast.FuncType`: TypeParams, Params, Results. -/
def InspectFuncType {σ : Type} (f : σ → Option Node → σ × Bool) (s : σ) : FuncType → σ
  | .mk tp ps rs => visit f s (.ofFuncType (.mk tp ps rs)) fun s =>
      InspectOptFieldList f (InspectOptFieldList f (InspectOptFieldList f s tp) ps) rs
/-- Walk of a `*ast.FieldList` that may be nil. -/
def InspectOptFieldList {σ : Type} (f : σ → Option Node → σ × Bool) (s : σ) :
    Option FieldList → σ
  | none => s
  | some l => InspectFieldList f s l
/-- Walk of a `*ast.FieldList`: its fields, first to last. -/
def InspectFieldList {σ : Type} (f : σ → Option Node → σ × Bool) (s : σ) : FieldList → σ
  | .mk o l c => visit f s (.ofFieldList (.mk o l c)) fun s => InspectFields f s l
/-- Walk of the fields of a field list. -/
def InspectFields {σ : Type} (f : σ → Option Node → σ × Bool) (s : σ) : List Field → σ
  | [] => s
  | x :: xs => InspectFields f (InspectField f s x) xs
/-- Walk of a `*ast.Field`: Names, then Type. -/
def InspectField {σ : Type} (f : σ → Option Node → σ × Bool) (s : σ) : Field → σ
  | .mk ns t => visit f s (.ofField (.mk ns t)) fun s => Inspect f (InspectList f s ns) t
end

/-! ## The standard library, as a parameter -/

/-- The library functions `processFile` calls.
`ParseFile` is `parser.ParseFile` (the tree and the position table of the file
set, `none` for a syntax error); `Fprint fset n` is the content of the buffer
after `printer.Fprint(&buf, fset, n)`; `TrimSpace` is `strings.TrimSpace`;
`Source` is `format.Source` (`none` for an error). -/
structure Lib where
  ParseFile : Text → Option (Node × FileSet)
  Fprint : FileSet → Node → Text
  TrimSpace : Text → Text
  Source : Text → Option Text

/-- The function `strings.Join`. -/
def Join : List Text → Text → Text
  | [], _ => []
  | [a], _ => a
  | a :: b :: rest, sep => a ++ sep ++ Join (b :: rest) sep

/-! ## The renderers -/

/-- Lines 102-107 (and 167-172): the loop that prints every name of a field
and appends it to `names`. -/
def printNames (lib : Lib) (fset : FileSet) (names : List Text) : List Node → List Text
  | [] => names
  | name :: rest => printNames lib fset (names ++ [lib.Fprint fset name]) rest

/-- Lines 101-117 (and 166-182): the body of the loop over the fields; the
result is the buffer after the `WriteString` of the field. -/
def writeField (lib : Lib) (fset : FileSet) (buf : Text) : Field → Text
  | .mk Names Type_ =>
    if Names.length > 0 then
      let names := printNames lib fset [] Names
      let fieldStr := Join names ", ".toList ++ " ".toList ++ lib.TrimSpace (lib.Fprint fset Type_)
      buf ++ ("  ".toList ++ fieldStr ++ ",\n".toList)
    else
      let fieldStr := lib.TrimSpace (lib.Fprint fset Type_)
      buf ++ ("  ".toList ++ fieldStr ++ ",\n".toList)

/-- Lines 100-118 (and 165-183): the loop over the fields of a parameter list. -/
def writeFields (lib : Lib) (fset : FileSet) (buf : Text) : List Field → Text
  | [] => buf
  | field :: rest => writeFields lib fset (writeField lib fset buf field) rest

/-- Lines 98-120 (and 163-185): `newParams`. -/
def newParams (lib : Lib) (fset : FileSet) (list : List Field) : Text :=
  writeFields lib fset "(\n".toList list ++ ")".toList

/-- Lines 137-141: the loop over the arguments of a call. -/
def writeArgs (lib : Lib) (fset : FileSet) (buf : Text) : List Node → Text
  | [] => buf
  | arg :: rest =>
    writeArgs lib fset (buf ++ ("  ".toList ++ lib.TrimSpace (lib.Fprint fset arg) ++ ",\n".toList)) rest

/-- Lines 135-143: `newArgs`. -/
def newArgs (lib : Lib) (fset : FileSet) (args : List Node) : Text :=
  writeArgs lib fset "(\n".toList args ++ ")".toList

/-! ## The walk of `processFile` -/

/-- Lines 153-190: the loop over the methods of an interface type. -/
def interfaceMethods (lib : Lib) (fset : FileSet) (modifications : List modification) :
    List Field → List modification
  | [] => modifications
  | .mk _ (.ofFuncType (.mk _ (some (.mk lparen list rparen)) _)) :: rest =>
    if list.length = 0 then interfaceMethods lib fset modifications rest
    else
      let posL := fset lparen
      let posR := fset rparen
      if posL.Line = posR.Line then
        let startOffset := (fset lparen).Offset
        let endOffset := (fset rparen).Offset + 1
        interfaceMethods lib fset
          (modifications ++ [⟨startOffset, endOffset, newParams lib fset list⟩]) rest
      else interfaceMethods lib fset modifications rest
  | _ :: rest => interfaceMethods lib fset modifications rest

/-- Lines 83-193: the function literal passed to `ast.Inspect`.  Its captured
variable `modifications` is the state; the Boolean is its result. -/
def inspectFunc (lib : Lib) (fset : FileSet) (modifications : List modification) :
    Option Node → List modification × Bool
  | some (.FuncDecl _ _ (.mk _ none _) _) => (modifications, true)
  | some (.FuncDecl _ _ (.mk _ (some (.mk lparen list rparen)) _) _) =>
    if list.length = 0 then (modifications, true)
    else
      let posL := fset lparen
      let posR := fset rparen
      if posL.Line = posR.Line then
        let startOffset := (fset lparen).Offset
        let endOffset := (fset rparen).Offset + 1
        (modifications ++ [⟨startOffset, endOffset, newParams lib fset list⟩], true)
      else (modifications, true)
  | some (.CallExpr _ Lparen Args _ Rparen) =>
    if Pos.IsValid Lparen && Pos.IsValid Rparen && decide (Args.length > 0) then
      let posL := fset Lparen
      let posR := fset Rparen
      if posL.Line = posR.Line then
        let startOffset := (fset Lparen).Offset
        let endOffset := (fset Rparen).Offset + 1
        (modifications ++ [⟨startOffset, endOffset, newArgs lib fset Args⟩], true)
      else (modifications, true)
    else (modifications, true)
  | some (.InterfaceType (.mk _ methods _)) => (interfaceMethods lib fset modifications methods, true)
  | _ => (modifications, true)

/-- Lines 80-193: the modifications collected by the walk of the file. -/
def collect (lib : Lib) (fset : FileSet) (f : Node) : List modification :=
  Inspect (inspectFunc lib fset) [] f

/-! ## The splice loop -/

/-- The slice expression `s[:i]`; it panics when `i > len(s)`. -/
def sliceTo (s : Text) (i : Nat) : Option Text :=
  if i ≤ s.length then some (s.take i) else none

/-- The slice expression `s[i:]`; it panics when `i > len(s)`. -/
def sliceFrom (s : Text) (i : Nat) : Option Text :=
  if i ≤ s.length then some (s.drop i) else none

/-- Line 203: `newSrc[:mod.start] + mod.replacement + newSrc[mod.end:]`. -/
def spliceStep (newSrc : Text) (mod : modification) : Option Text :=
  match sliceTo newSrc mod.start, sliceFrom newSrc mod.end_ with
  | some a, some b => some (a ++ mod.replacement ++ b)
  | _, _ => none

/-- Lines 201-204: the loop `for i := len(modifications) - 1; i >= 0; i--`.
The counter `k` is `i + 1`; the loop is entered with `k = len(modifications)`. -/
def spliceLoop (modifications : List modification) : Nat → Text → Option Text
  | 0, newSrc => some newSrc
  | i + 1, newSrc =>
    match modifications.get? i with
    | none => none
    | some mod =>
      match spliceStep newSrc mod with
      | none => none
      | some newSrc1 => spliceLoop modifications i newSrc1

/-- Lines 199-204: the text after the loop, `none` when a slice panics. -/
def splice (src : Text) (modifications : List modification) : Option Text :=
  spliceLoop modifications modifications.length src

/-! ## `processFile` -/

/-- What `processFile` does to the outside, in order: the calls to the
collaborators (console output left out) and a run-time panic. -/
inductive Event where
  | ReadFile
  | ParseFile (src : Text)
  | Source (src : Text)
  | WriteFile (data : Text)
  | Panic
deriving DecidableEq, Repr

/-- Lines 64-217.  `file` is the result of `os.ReadFile` (`none` for an error). -/
def processFile (lib : Lib) (file : Option Text) : List Event :=
  match file with
  | none => [.ReadFile]
  | some src =>
    match lib.ParseFile src with
    | none => [.ReadFile, .ParseFile src]
    | some (f, fset) =>
      let modifications := collect lib fset f
      if modifications.length = 0 then [.ReadFile, .ParseFile src]
      else
        match splice src modifications with
        | none => [.ReadFile, .ParseFile src, .Panic]
        | some newSrc =>
          match lib.Source newSrc with
          | none => [.ReadFile, .ParseFile src, .Source newSrc]
          | some formatted => [.ReadFile, .ParseFile src, .Source newSrc, .WriteFile formatted]

/-- The bytes stored in the file after a run: those of the last `WriteFile`
(a write that succeeds), the old ones when there is none. -/
def storedAfter (stored : Text) : List Event → Text
  | [] => stored
  | .WriteFile data :: rest => storedAfter data rest
  | _ :: rest => storedAfter stored rest

/-! ## The splice, as the specification words it -/

/-- Every element of the list stands in relation `R` to the next one. -/
def eachToNext {α : Type} (R : α → α → Prop) : List α → Prop
  | [] => True
  | [_] => True
  | a :: b :: rest => R a b ∧ eachToNext R (b :: rest)

/-- Decision procedure of `eachToNext`. -/
def decEachToNext {α : Type} (R : α → α → Prop) [DecidableRel R] :
    (l : List α) → Decidable (eachToNext R l)
  | [] => isTrue trivial
  | [_] => isTrue trivial
  | a :: b :: rest =>
    match (inferInstance : Decidable (R a b)), decEachToNext R (b :: rest) with
    | isTrue h1, isTrue h2 => isTrue ⟨h1, h2⟩
    | isFalse h1, _ => isFalse fun h => h1 h.1
    | _, isFalse h2 => isFalse fun h => h2 h.2

instance {α : Type} (R : α → α → Prop) [DecidableRel R] (l : List α) :
    Decidable (eachToNext R l) := decEachToNext R l

/-- The list is in ascending order of start offset. -/
def startsAscending (mods : List modification) : Prop :=
  eachToNext (fun a b => a.start ≤ b.start) mods

/-- Each modification ends before the next one starts. -/
def nonOverlapping (mods : List modification) : Prop :=
  eachToNext (fun a b => a.end_ ≤ b.start) mods

/-- Every range lies inside a text of `n` bytes: `0 ≤ start ≤ end ≤ n`. -/
def insideText (n : Nat) (mods : List modification) : Prop :=
  ∀ m ∈ mods, m.start ≤ m.end_ ∧ m.end_ ≤ n

instance (mods : List modification) : Decidable (startsAscending mods) :=
  inferInstanceAs (Decidable (eachToNext _ mods))

instance (mods : List modification) : Decidable (nonOverlapping mods) :=
  inferInstanceAs (Decidable (eachToNext _ mods))

instance (n : Nat) (mods : List modification) : Decidable (insideText n mods) :=
  inferInstanceAs (Decidable (∀ m ∈ mods, m.start ≤ m.end_ ∧ m.end_ ≤ n))

/-- The text `orig[pos:s1] ++ r1 ++ orig[e1:s2] ++ r2 ++ ... ++ rn ++ orig[en:]`:
every range of the original is replaced, every byte outside the ranges is
kept, in order. -/
def keepAndReplace (orig : Text) (pos : Nat) : List modification → Text
  | [] => orig.drop pos
  | m :: ms => (orig.take m.start).drop pos ++ m.replacement ++ keepAndReplace orig m.end_ ms

/-- The modifications applied from the last of the list to the first. -/
def applyBack (s : Text) : List modification → Option Text
  | [] => some s
  | m :: ms => (applyBack s ms).bind fun t => spliceStep t m

/-- The ranges lie in order between `pos` and `n`. -/
def placedFrom (n : Nat) : Nat → List modification → Prop
  | pos, [] => pos ≤ n
  | pos, m :: ms => pos ≤ m.start ∧ m.start ≤ m.end_ ∧ placedFrom n m.end_ ms

/-! ## The library on concrete texts

The definitions below fix what the Go library answers on the texts of the
examples: positions as `go/token` computes them for one file, the printed form
of identifiers, literals and one-line calls, the trimming of ASCII white space,
and the trees `go/parser` builds for the example files. -/

/-- The position table of a file set that holds one file with text `src` and
no line directive: base 1, offset `p - 1`, line `1 +` the number of line
breaks before the offset; the zero `Position` for a position outside the file. -/
def fileSetOf (src : Text) : FileSet := fun p =>
  if p = 0 ∨ src.length + 1 < p then ⟨0, 0⟩
  else ⟨p - 1, 1 + (src.take (p - 1)).count '\n'⟩

mutual
/-- The output of `go/printer` for an identifier, a literal, and a call of
these written on one line without `...`; empty for every other node. -/
def printExpr : Node → Text
  | .Ident _ name => name
  | .BasicLit _ value => value
  | .CallExpr fn _ args _ _ => printExpr fn ++ "(".toList ++ printExprs args ++ ")".toList
  | _ => []
/-- The printed expressions, separated by a comma and a space. -/
def printExprs : List Node → Text
  | [] => []
  | [a] => printExpr a
  | a :: b :: rest => printExpr a ++ ", ".toList ++ printExprs (b :: rest)
end

/-- The six ASCII white space bytes of `strings.TrimSpace`. -/
def isAsciiSpace (c : Char) : Bool :=
  c == '\t' || c == '\n' || c == '\x0b' || c == '\x0c' || c == '\r' || c == ' '

/-- The function `strings.TrimSpace` on a text whose leading and trailing
white space is ASCII. -/
def asciiTrimSpace (s : Text) : Text :=
  ((s.dropWhile isAsciiSpace).reverse.dropWhile isAsciiSpace).reverse

/-- Lookup of a text in a table. -/
def lookupText {α : Type} (key : Text) : List (Text × α) → Option α
  | [] => none
  | (k, v) :: rest => if k = key then some v else lookupText key rest

/-- The file `var x = a.b(1).c(2)`. -/
def srcChained : Text := "package p\n\nvar x = a.b(1).c(2)\n".toList

/-- The tree of `srcChained`: the outer call `a.b(1).c(2)` has its parentheses
at offsets 27 and 29, the inner call `a.b(1)`, the operand of the selector
`.c`, at offsets 22 and 24. -/
def astChained : Node :=
  .File (.Ident 9 "p".toList)
    [.Other "GenDecl" [.Other "ValueSpec" [.Ident 16 "x".toList,
      .CallExpr
        (.Other "SelectorExpr"
          [.CallExpr (.Other "SelectorExpr" [.Ident 20 "a".toList, .Ident 22 "b".toList])
             23 [.BasicLit 24 "1".toList] 0 25,
           .Ident 27 "c".toList])
        28 [.BasicLit 29 "2".toList] 0 30]]]

/-- The file `var x = f(g(1, 2), 3)`. -/
def srcNested : Text := "package p\n\nvar x = f(g(1, 2), 3)\n".toList

/-- The tree of `srcNested`: the outer call has its parentheses at offsets 20
and 31, the inner call `g(1, 2)` at offsets 22 and 27. -/
def astNested : Node :=
  .File (.Ident 9 "p".toList)
    [.Other "GenDecl" [.Other "ValueSpec" [.Ident 16 "x".toList,
      .CallExpr (.Ident 20 "f".toList) 21
        [.CallExpr (.Ident 22 "g".toList) 23
           [.BasicLit 24 "1".toList, .BasicLit 27 "2".toList] 0 28,
         .BasicLit 31 "3".toList] 0 32]]]

/-- The file `var x = f(g(1,        2), 3)`: the inner argument list, written
with eight spaces after its comma, is 13 bytes long. -/
def srcPadded : Text := "package p\n\nvar x = f(g(1,        2), 3)\n".toList

/-- The tree of `srcPadded`. -/
def astPadded : Node :=
  .File (.Ident 9 "p".toList)
    [.Other "GenDecl" [.Other "ValueSpec" [.Ident 16 "x".toList,
      .CallExpr (.Ident 20 "f".toList) 21
        [.CallExpr (.Ident 22 "g".toList) 23
           [.BasicLit 24 "1".toList, .BasicLit 34 "2".toList] 0 35,
         .BasicLit 38 "3".toList] 0 39]]]

/-- The text after the splice loop on `srcPadded`. -/
def splicedPadded : Text := "package p\n\nvar x = f(\n  g(1, 2),\n  3,\n)\n".toList

/-- The formatted form of `splicedPadded`: each argument line indented by a tab. -/
def fmtPadded : Text := "package p\n\nvar x = f(\n\tg(1, 2),\n\t3,\n)\n".toList

/-- The tree of `fmtPadded`: the outer parentheses on lines 3 and 6, the call
`g(1, 2)` on line 4 with its parentheses at offsets 24 and 29. -/
def astFmtPadded : Node :=
  .File (.Ident 9 "p".toList)
    [.Other "GenDecl" [.Other "ValueSpec" [.Ident 16 "x".toList,
      .CallExpr (.Ident 20 "f".toList) 21
        [.CallExpr (.Ident 24 "g".toList) 25
           [.BasicLit 26 "1".toList, .BasicLit 29 "2".toList] 0 30,
         .BasicLit 34 "3".toList] 0 37]]]

/-- The text after the splice loop on `fmtPadded`. -/
def splicedFmtPadded : Text :=
  "package p\n\nvar x = f(\n\tg(\n  1,\n  2,\n),\n\t3,\n)\n".toList

/-- The formatted form of `splicedFmtPadded`. -/
def fmtTwice : Text :=
  "package p\n\nvar x = f(\n\tg(\n\t\t1,\n\t\t2,\n\t),\n\t3,\n)\n".toList

/-- The file `func f(` / `a int,` / `)`: a parameter list on three lines. -/
def srcMultiLine : Text := "package p\n\nfunc f(\n\ta int,\n)\n".toList

/-- The tree of `srcMultiLine`. -/
def astMultiLine : Node :=
  .File (.Ident 9 "p".toList)
    [.FuncDecl none (.Ident 17 "f".toList)
      (.mk none (some (.mk 18 [.mk [.Ident 21 "a".toList] (.Ident 23 "int".toList)] 28)) none)
      none]

/-- The file `func f(a, b int, c string)`. -/
def srcGrouped : Text := "package p\n\nfunc f(a, b int, c string)\n".toList

/-- The parameter list of `srcGrouped`: two fields, the first with two names. -/
def paramsGrouped : List Field :=
  [.mk [.Ident 19 "a".toList, .Ident 22 "b".toList] (.Ident 24 "int".toList),
   .mk [.Ident 29 "c".toList] (.Ident 31 "string".toList)]

/-- The tree of `srcGrouped`. -/
def astGrouped : Node :=
  .File (.Ident 9 "p".toList)
    [.FuncDecl none (.Ident 17 "f".toList) (.mk none (some (.mk 18 paramsGrouped 37)) none) none]

/-- The file `type C interface` with the one element `func(x int)`: a function
type written as a type element of the interface, not a method. -/
def srcEmbedded : Text := "package p\n\ntype C interface \x7b\n\tfunc(x int)\n\x7d\n".toList

/-- The tree of `srcEmbedded`: the element is a field without a name whose type
is the function type; its parentheses are at offsets 35 and 41. -/
def astEmbedded : Node :=
  .File (.Ident 9 "p".toList)
    [.Other "GenDecl" [.Other "TypeSpec" [.Ident 17 "C".toList,
      .InterfaceType (.mk 29
        [.mk [] (.ofFuncType (.mk none
          (some (.mk 36 [.mk [.Ident 37 "x".toList] (.Ident 39 "int".toList)] 42)) none))]
        44)]]]

/-- The file with the method declaration `func (r T) m() (a, b int)` and the
variable `var g func(x int)`: a receiver list, an empty parameter list, a
result list and the parameter list of a function type, each on one line. -/
def srcOtherLists : Text :=
  "package p\n\nfunc (r T) m() (a, b int)\n\nvar g func(x int)\n".toList

/-- The tree of `srcOtherLists`. -/
def astOtherLists : Node :=
  .File (.Ident 9 "p".toList)
    [.FuncDecl (some (.mk 17 [.mk [.Ident 18 "r".toList] (.Ident 20 "T".toList)] 21))
       (.Ident 23 "m".toList)
       (.mk none (some (.mk 24 [] 25))
         (some (.mk 27 [.mk [.Ident 28 "a".toList, .Ident 31 "b".toList]
           (.Ident 33 "int".toList)] 36)))
       none,
     .Other "GenDecl" [.Other "ValueSpec" [.Ident 43 "g".toList,
       .ofFuncType (.mk none
         (some (.mk 49 [.mk [.Ident 50 "x".toList] (.Ident 52 "int".toList)] 55)) none)]]]

/-- The file `var x = f(g(1          ))`: the inner argument list, written with
ten spaces before its closing parenthesis, is 13 bytes long and its
replacement 8 bytes. -/
def srcSpaced : Text := "package p\n\nvar x = f(g(1          ))\n".toList

/-- The tree of `srcSpaced`: the outer parentheses at offsets 20 and 35, the
inner ones at offsets 22 and 34. -/
def astSpaced : Node :=
  .File (.Ident 9 "p".toList)
    [.Other "GenDecl" [.Other "ValueSpec" [.Ident 16 "x".toList,
      .CallExpr (.Ident 20 "f".toList) 21
        [.CallExpr (.Ident 22 "g".toList) 23 [.BasicLit 24 "1".toList] 0 35] 0 36]]]

/-- The file `var x = f(a, xs...)`. -/
def srcVariadic : Text := "package p\n\nvar x = f(a, xs...)\n".toList

/-- The tree of `srcVariadic`: the call has the position of `...` (offset 26)
in its field `Ellipsis`; its arguments are the identifiers `a` and `xs`. -/
def astVariadic : Node :=
  .File (.Ident 9 "p".toList)
    [.Other "GenDecl" [.Other "ValueSpec" [.Ident 16 "x".toList,
      .CallExpr (.Ident 20 "f".toList) 21
        [.Ident 22 "a".toList, .Ident 25 "xs".toList] 27 30]]]

/-- The trees the parser builds for the example files. -/
def parsedFiles : List (Text × Node) :=
  [(srcChained, astChained), (srcNested, astNested), (srcPadded, astPadded),
   (fmtPadded, astFmtPadded), (srcMultiLine, astMultiLine), (srcGrouped, astGrouped),
   (srcEmbedded, astEmbedded), (srcOtherLists, astOtherLists), (srcSpaced, astSpaced),
   (srcVariadic, astVariadic)]

/-- The results of `format.Source` on the spliced example texts that are valid Go. -/
def formattedTexts : List (Text × Text) :=
  [(splicedPadded, fmtPadded), (splicedFmtPadded, fmtTwice)]

/-- The library on the example texts; a text outside the tables counts as one
that does not parse. -/
def goLib : Lib where
  ParseFile src := (lookupText src parsedFiles).map fun f => (f, fileSetOf src)
  Fprint _ n := printExpr n
  TrimSpace := asciiTrimSpace
  Source src := lookupText src formattedTexts

/-- Two byte ranges `[start, end)` have no byte in common. -/
def disjointRanges (a b : modification) : Prop :=
  a.end_ ≤ b.start ∨ b.end_ ≤ a.start

instance (a b : modification) : Decidable (disjointRanges a b) :=
  inferInstanceAs (Decidable (a.end_ ≤ b.start ∨ b.end_ ≤ a.start))

/-! ## Candidates, as the specification words them -/

mutual
/-- Every node of the tree below `n`, `n` first, children left to right. -/
def allNodes : Node → List Node
  | .File nm ds => .File nm ds :: (allNodes nm ++ allNodesList ds)
  | .Ident p n => [.Ident p n]
  | .BasicLit p v => [.BasicLit p v]
  | .FuncDecl recv nm ty body => .FuncDecl recv nm ty body ::
      (allNodesOptFieldList recv ++ allNodes nm ++ allNodesFuncType ty ++ allNodesOpt body)
  | .CallExpr fn l args e r => .CallExpr fn l args e r :: (allNodes fn ++ allNodesList args)
  | .InterfaceType ms => .InterfaceType ms :: allNodesFieldList ms
  | .ofFuncType t => allNodesFuncType t
  | .ofFieldList l => allNodesFieldList l
  | .ofField x => allNodesField x
  | .Other k cs => .Other k cs :: allNodesList cs
/-- The nodes of a list of trees. -/
def allNodesList : List Node → List Node
  | [] => []
  | n :: ns => allNodes n ++ allNodesList ns
/-- The nodes of a tree that may be absent. -/
def allNodesOpt : Option Node → List Node
  | none => []
  | some n => allNodes n
/-- The nodes of a function type. -/
def allNodesFuncType : FuncType → List Node
  | .mk tp ps rs => .ofFuncType (.mk tp ps rs) ::
      (allNodesOptFieldList tp ++ allNodesOptFieldList ps ++ allNodesOptFieldList rs)
/-- The nodes of a field list that may be absent. -/
def allNodesOptFieldList : Option FieldList → List Node
  | none => []
  | some l => allNodesFieldList l
/-- The nodes of a field list. -/
def allNodesFieldList : FieldList → List Node
  | .mk o l c => .ofFieldList (.mk o l c) :: allNodesFields l
/-- The nodes of the fields of a field list. -/
def allNodesFields : List Field → List Node
  | [] => []
  | x :: xs => allNodesField x ++ allNodesFields xs
/-- The nodes of a field. -/
def allNodesField : Field → List Node
  | .mk ns t => .ofField (.mk ns t) :: (allNodesList ns ++ allNodes t)
end

/-- A parenthesised list of one of the three shapes: its two parentheses, the
number of its elements, and whether it is the argument list of a call. -/
structure ParenList where
  Opening : Pos
  Closing : Pos
  count : Nat
  ofCall : Bool
deriving DecidableEq, Repr

/-- The parameter list of an entry of an interface's list whose type is a
function type with a parameter list, as lines 153-157 select it: a method, or
a function type written as a type element. -/
def methodParams : Field → Option ParenList
  | .mk _ (.ofFuncType (.mk _ (some (.mk o l c)) _)) => some ⟨o, c, l.length, false⟩
  | _ => none

/-- The lists of the three shapes that belong to one node: the parameter list
of a function declaration, the argument list of a call expression, the
parameter lists of the function-typed entries of an interface type. -/
def listsOf : Node → List ParenList
  | .FuncDecl _ _ (.mk _ (some (.mk o l c)) _) _ => [⟨o, c, l.length, false⟩]
  | .CallExpr _ lparen args _ rparen => [⟨lparen, rparen, args.length, true⟩]
  | .InterfaceType (.mk _ methods _) => methods.filterMap methodParams
  | _ => []

/-- The candidate predicate: the list is non-empty, its parentheses resolve to
the same line number and, for a call, both parenthesis positions are valid. -/
def qualifies (fset : FileSet) (l : ParenList) : Prop :=
  l.count ≠ 0 ∧ (fset l.Opening).Line = (fset l.Closing).Line ∧
    (l.ofCall = true → l.Opening ≠ 0 ∧ l.Closing ≠ 0)

instance (fset : FileSet) (l : ParenList) : Decidable (qualifies fset l) :=
  inferInstanceAs (Decidable (_ ∧ _ ∧ _))

/-- The byte range of a list: the offset of the opening parenthesis and the
offset of the closing parenthesis plus one. -/
def rangeOf (fset : FileSet) (l : ParenList) : Nat × Nat :=
  ((fset l.Opening).Offset, (fset l.Closing).Offset + 1)

/-- The candidates of a file: the qualifying lists of all its nodes. -/
def candidates (fset : FileSet) (f : Node) : List ParenList :=
  ((allNodes f).flatMap listsOf).filter fun l => decide (qualifies fset l)

/-- The closure of the walk together with a record of the nodes it is called on. -/
def recordingFunc (lib : Lib) (fset : FileSet) (s : List Node × List modification)
    (n : Option Node) : (List Node × List modification) × Bool :=
  ((s.1 ++ n.toList, (inspectFunc lib fset s.2 n).1), (inspectFunc lib fset s.2 n).2)

/-! ## The replacement text, as the specification words it -/

/-- The text of a call argument: its printed form, trimmed. -/
def argText (lib : Lib) (fset : FileSet) (arg : Node) : Text :=
  lib.TrimSpace (lib.Fprint fset arg)

/-- The text of a parameter group: the printed names joined by a comma and a
space, one space and the trimmed printed type; the trimmed printed type alone
for a group without names. -/
def fieldText (lib : Lib) (fset : FileSet) : Field → Text
  | .mk [] ty => lib.TrimSpace (lib.Fprint fset ty)
  | .mk (n :: ns) ty =>
    Join ((n :: ns).map (lib.Fprint fset)) ", ".toList ++ " ".toList
      ++ lib.TrimSpace (lib.Fprint fset ty)

/-- One element line: two spaces, the text, a comma and a line break. -/
def elementLine (t : Text) : Text := "  ".toList ++ t ++ ",\n".toList

/-- The block `(`, line break, one element line for each text, `)`. -/
def onePerLine (texts : List Text) : Text :=
  "(\n".toList ++ texts.flatMap elementLine ++ ")".toList

/-- The file content after one run of the program on a file with content `s`. -/
def transform (lib : Lib) (s : Text) : Text :=
  storedAfter s (processFile lib (some s))

/-! ## The three shapes, with a method told from an embedded type -/

/-- The parameter list of an interface method: the entry has a name and its
type is a function type with a parameter list. -/
def namedMethodParams : Field → Option ParenList
  | .mk (_ :: _) (.ofFuncType (.mk _ (some (.mk o l c)) _)) => some ⟨o, c, l.length, false⟩
  | _ => none

/-- The lists of the three recognised shapes of one node: the parameter list
of a function declaration, the argument list of a call expression, the
parameter lists of the methods declared in an interface type. -/
def shapesOf : Node → List ParenList
  | .FuncDecl _ _ (.mk _ (some (.mk o l c)) _) _ => [⟨o, c, l.length, false⟩]
  | .CallExpr _ lparen args _ rparen => [⟨lparen, rparen, args.length, true⟩]
  | .InterfaceType (.mk _ methods _) => methods.filterMap namedMethodParams
  | _ => []

/-! ## Directory mode (`main`, lines 37-57) -/

/-- A directory tree as `os.Lstat` and the directory listings show it: an
entry that is not a directory, a directory with its entries in the order of
the listing, a directory whose listing fails, and a name whose `Lstat` fails. -/
inductive FsEntry where
  | file (name : Text)
  | dir (name : Text) (entries : List FsEntry)
  | noList (name : Text)
  | noLstat (name : Text)

/-- The name of an entry. -/
def FsEntry.name : FsEntry → Text
  | .file name => name
  | .dir name _ => name
  | .noList name => name
  | .noLstat name => name

/-- Whether `Lstat` reports the entry as a directory. -/
def FsEntry.IsDir : FsEntry → Bool
  | .dir _ _ => true
  | .noList _ => true
  | _ => false

/-- The interface `fs.FileInfo`, reduced to the two methods the closure calls. -/
structure FileInfo where
  Name : Text
  IsDir : Bool
deriving DecidableEq, Repr

/-- The non-nil errors a `filepath.WalkFunc` of this program returns or is
handed: `filepath.SkipDir` and any other error. -/
inductive WalkErr where
  | SkipDir
  | failure
deriving DecidableEq, Repr

mutual
/-- The function `walk` of `path/filepath`: the closure is called on the
entry, with the error of the listing for a directory; the entries of a
directory are walked in the order of the listing.  `join` is `filepath.Join`. -/
def walk {σ : Type} (join : Text → Text → Text)
    (fn : σ → Text → Option FileInfo → Bool → σ × Option WalkErr) (s : σ) (path : Text) :
    FsEntry → σ × Option WalkErr
  | .file name => fn s path (some ⟨name, false⟩) false
  | .noLstat _ => fn s path none true
  | .noList name => fn s path (some ⟨name, true⟩) true
  | .dir name entries =>
    match fn s path (some ⟨name, true⟩) false with
    | (s1, some err1) => (s1, some err1)
    | (s1, none) => walkNames join fn s1 path entries
/-- The loop of `walk` over the names of a directory. -/
def walkNames {σ : Type} (join : Text → Text → Text)
    (fn : σ → Text → Option FileInfo → Bool → σ × Option WalkErr) (s : σ) (path : Text) :
    List FsEntry → σ × Option WalkErr
  | [] => (s, none)
  | .noLstat name :: rest =>
    match fn s (join path name) none true with
    | (s1, some .failure) => (s1, some .failure)
    | (s1, _) => walkNames join fn s1 path rest
  | .file name :: rest =>
    match walk join fn s (join path name) (.file name) with
    | (s1, some err) => (s1, some err)
    | (s1, none) => walkNames join fn s1 path rest
  | .dir name entries :: rest =>
    match walk join fn s (join path name) (.dir name entries) with
    | (s1, some .failure) => (s1, some .failure)
    | (s1, _) => walkNames join fn s1 path rest
  | .noList name :: rest =>
    match walk join fn s (join path name) (.noList name) with
    | (s1, some .failure) => (s1, some .failure)
    | (s1, _) => walkNames join fn s1 path rest
end

/-- The function `filepath.Walk`: `SkipDir` from the root counts as success. -/
def Walk {σ : Type} (join : Text → Text → Text)
    (fn : σ → Text → Option FileInfo → Bool → σ × Option WalkErr) (s : σ) (root : Text)
    (tree : FsEntry) : σ × Option WalkErr :=
  match walk join fn s root tree with
  | (s1, some .SkipDir) => (s1, none)
  | r => r

/-- The function `strings.HasSuffix`. -/
def HasSuffix (s suffix : Text) : Bool :=
  decide (suffix.length ≤ s.length) && s.drop (s.length - suffix.length) == suffix

/-- Lines 39-50: the closure passed to `filepath.Walk`; its captured variable
`files` is the state, `err` tells whether the error argument is non-nil. -/
def walkFunc (files : List Text) (p : Text) (info : Option FileInfo) (err : Bool) :
    List Text × Option WalkErr :=
  if err then (files, some .failure)
  else
    match info with
    | none => (files, some .failure)
    | some info =>
      if info.IsDir && info.Name == "vendor".toList then (files, some .SkipDir)
      else if !info.IsDir && HasSuffix p ".go".toList then (files ++ [p], none)
      else (files, none)

/-- Lines 37-57: the list `files`; `none` when the walk returns an error and
`main` exits.  `statIsDir` is `info.IsDir()` of the `os.Stat` on line 31. -/
def collectFiles (join : Text → Text → Text) (path : Text) (statIsDir : Bool)
    (tree : FsEntry) : Option (List Text) :=
  if statIsDir then
    match Walk join walkFunc [] path tree with
    | (files, none) => some files
    | (_, some _) => none
  else some [path]

/-- The kind of an entry of the tree. -/
inductive EntryKind where
  | nonDir
  | directory
  | failing
deriving DecidableEq, Repr

/-- An entry of the tree: its path, its kind, and the names of the
directories on the way from the root to it, the root included. -/
structure Listed where
  path : Text
  kind : EntryKind
  above : List Text
deriving DecidableEq, Repr

mutual
/-- Every entry of the tree below `path`, in the order of the listings. -/
def listedOf (join : Text → Text → Text) (path : Text) (above : List Text) :
    FsEntry → List Listed
  | .file _ => [⟨path, .nonDir, above⟩]
  | .noLstat _ => [⟨path, .failing, above⟩]
  | .noList _ => [⟨path, .failing, above⟩]
  | .dir name entries =>
    ⟨path, .directory, above⟩ :: listedOfNames join path (above ++ [name]) entries
/-- The entries of the entries of a directory. -/
def listedOfNames (join : Text → Text → Text) (path : Text) (above : List Text) :
    List FsEntry → List Listed
  | [] => []
  | e :: rest => listedOf join (join path e.name) above e ++ listedOfNames join path above rest
end

/-- The entry is to be processed: it is not a directory, its path ends in
`.go`, and no directory on the way from the root is named `vendor`. -/
def Listed.wanted (e : Listed) : Bool :=
  e.kind == .nonDir && HasSuffix e.path ".go".toList && !(e.above.contains "vendor".toList)

/-- The entry has a failing `Lstat` or listing and no directory on the way
from the root is named `vendor`. -/
def Listed.failsReached (e : Listed) : Bool :=
  e.kind == .failing && !(e.above.contains "vendor".toList)

/-- The files to process: the paths of the entries that are not a directory,
end in `.go` and have no directory named `vendor` on the way from the root. -/
def goFilesOutsideVendor (join : Text → Text → Text) (root : Text) (tree : FsEntry) :
    List Text :=
  ((listedOf join root [] tree).filter Listed.wanted).map Listed.path

/-- Some entry outside every directory named `vendor` has a failing `Lstat`
or a failing listing. -/
def failsOutsideVendor (join : Text → Text → Text) (root : Text) (tree : FsEntry) : Bool :=
  (listedOf join root [] tree).any Listed.failsReached

/-- The path `dir/name`. -/
def slashJoin (dir name : Text) : Text := dir ++ "/".toList ++ name

/-- A project directory with a `vendor` directory at the top and one below `pkg`. -/
def treeProject : FsEntry :=
  .dir "proj".toList
    [.file "a.go".toList,
     .dir "pkg".toList
       [.file "b.go".toList, .file "notes.txt".toList,
        .dir "vendor".toList [.file "w.go".toList]],
     .dir "vendor".toList [.file "v.go".toList, .dir "lib".toList [.file "u.go".toList]],
     .file "vendor.go".toList]

/-! ## Theorems about the splice loop -/

theorem applyBack_append_singleton (s : Text) (l : List modification) (m : modification) :
    applyBack s (l ++ [m]) = (spliceStep s m).bind fun t => applyBack t l := by
  induction l with
  | nil => simp [applyBack]
  | cons a l ih =>
    show (applyBack s (l ++ [m])).bind _ = _
    rw [ih]
    cases spliceStep s m <;> simp [applyBack]

theorem spliceLoop_eq_applyBack (mods : List modification) :
    ∀ (k : Nat) (s : Text), k ≤ mods.length → spliceLoop mods k s = applyBack s (mods.take k) := by
  intro k
  induction k with
  | zero => intro s _; simp [spliceLoop, applyBack]
  | succ i ih =>
    intro s hk
    have hi : i < mods.length := hk
    have hget : mods.get? i = some (mods.get ⟨i, hi⟩) := List.get?_eq_get hi
    have htake : mods.take (i + 1) = mods.take i ++ [mods.get ⟨i, hi⟩] := by
      simp [List.take_succ, hget]
    rw [htake, applyBack_append_singleton]
    simp only [spliceLoop, hget]
    cases hstep : spliceStep s (mods.get ⟨i, hi⟩) with
    | none => simp
    | some t => simpa using ih t (Nat.le_of_lt hi)

theorem splice_eq_applyBack (src : Text) (mods : List modification) :
    splice src mods = applyBack src mods := by
  unfold splice
  rw [spliceLoop_eq_applyBack mods mods.length src (Nat.le_refl _), List.take_length]

theorem placedFrom_le (n : Nat) : ∀ (mods : List modification) (pos : Nat),
    placedFrom n pos mods → pos ≤ n := by
  intro mods
  induction mods with
  | nil => intro pos h; exact h
  | cons m ms ih =>
    intro pos h
    obtain ⟨h1, h2, h3⟩ := h
    exact le_trans h1 (le_trans h2 (ih _ h3))

theorem spliceStep_take_append (orig rest : Text) (m : modification)
    (h1 : m.start ≤ m.end_) (h2 : m.end_ ≤ orig.length) :
    spliceStep (orig.take m.end_ ++ rest) m = some (orig.take m.start ++ m.replacement ++ rest) := by
  have hlen : (orig.take m.end_).length = m.end_ := by simp [h2]
  have hs : m.start ≤ (orig.take m.end_ ++ rest).length := by
    simp only [List.length_append, hlen]; omega
  have he : m.end_ ≤ (orig.take m.end_ ++ rest).length := by
    simp only [List.length_append, hlen]; omega
  have htake : (orig.take m.end_ ++ rest).take m.start = orig.take m.start := by
    rw [List.take_append_of_le_length (by rw [hlen]; exact h1), List.take_take]
    congr 1; omega
  have hdrop : (orig.take m.end_ ++ rest).drop m.end_ = rest := by
    have := List.drop_left (orig.take m.end_) rest
    rwa [hlen] at this
  simp only [spliceStep, sliceTo, sliceFrom, if_pos hs, if_pos he, htake, hdrop]

theorem applyBack_placed (orig : Text) : ∀ (mods : List modification) (pos : Nat),
    placedFrom orig.length pos mods →
    applyBack orig mods = some (orig.take pos ++ keepAndReplace orig pos mods) := by
  intro mods
  induction mods with
  | nil => intro pos _; simp [applyBack, keepAndReplace]
  | cons m ms ih =>
    intro pos h
    obtain ⟨h1, h2, h3⟩ := h
    have h4 : m.end_ ≤ orig.length := placedFrom_le _ _ _ h3
    simp only [applyBack, ih m.end_ h3, Option.some_bind, keepAndReplace]
    rw [spliceStep_take_append orig _ m h2 h4]
    have hsplit : orig.take pos ++ (orig.take m.start).drop pos = orig.take m.start := by
      have h5 : (orig.take m.start).take pos = orig.take pos := by
        rw [List.take_take]; congr 1; omega
      rw [← h5]; exact List.take_append_drop pos _
    congr 1
    simp only [← List.append_assoc, hsplit]

theorem placedFrom_of_chain (n : Nat) : ∀ (mods : List modification) (pos : Nat),
    nonOverlapping mods → insideText n mods → pos ≤ n →
    (∀ m ∈ mods.head?, pos ≤ m.start) → placedFrom n pos mods := by
  intro mods
  induction mods with
  | nil => intro pos _ _ hp _; exact hp
  | cons m ms ih =>
    intro pos hno hin _ hhead
    have hm := hin m (List.mem_cons_self _ _)
    refine ⟨hhead m (by simp), hm.1, ih m.end_ ?_ ?_ hm.2 ?_⟩
    · cases ms with
      | nil => trivial
      | cons b bs => exact hno.2
    · intro x hx; exact hin x (List.mem_cons_of_mem _ hx)
    · intro x hx
      cases ms with
      | nil => simp at hx
      | cons b bs =>
        simp only [List.head?_cons, Option.mem_def, Option.some.injEq] at hx
        subst hx
        exact hno.1

/-- C1 (splice correctness): for edits in ascending start order, pairwise
non-overlapping and inside the text, the loop of lines 199-204 does not panic
and returns `orig[0:s1] ++ r1 ++ orig[e1:s2] ++ ... ++ rn ++ orig[en:]`. -/
theorem splice_correct (orig : Text) (mods : List modification)
    (_hasc : startsAscending mods) (hno : nonOverlapping mods)
    (hin : insideText orig.length mods) :
    splice orig mods = some (keepAndReplace orig 0 mods) := by
  rw [splice_eq_applyBack]
  have h := applyBack_placed orig mods 0
    (placedFrom_of_chain _ mods 0 hno hin (Nat.zero_le _) (fun _ _ => Nat.zero_le _))
  simpa using h

/-- Witness of C1: two edits in the text `f(a); g(b)`. -/
theorem splice_correct_witness :
    startsAscending [⟨1, 4, "(\n  a,\n)".toList⟩, ⟨7, 10, "(\n  b,\n)".toList⟩] ∧
    nonOverlapping [⟨1, 4, "(\n  a,\n)".toList⟩, ⟨7, 10, "(\n  b,\n)".toList⟩] ∧
    insideText "f(a); g(b)".toList.length
      [⟨1, 4, "(\n  a,\n)".toList⟩, ⟨7, 10, "(\n  b,\n)".toList⟩] ∧
    splice "f(a); g(b)".toList [⟨1, 4, "(\n  a,\n)".toList⟩, ⟨7, 10, "(\n  b,\n)".toList⟩]
      = some "f(\n  a,\n); g(\n  b,\n)".toList :=
  ⟨by decide, by decide, by decide,
   splice_correct "f(a); g(b)".toList [⟨1, 4, "(\n  a,\n)".toList⟩, ⟨7, 10, "(\n  b,\n)".toList⟩]
     (by decide) (by decide) (by decide)⟩

/-! ## The collected edits of chained and nested calls -/

/-- C2 (edit order), evaluated on `var x = a.b(1).c(2)`: the walk visits the
outer call first, so the collected list holds the edit at offset 27 before the
edit at offset 22; it is not in ascending order of start, the loop applies the
edit at 22 before the edit at 27, and the spliced text is damaged. -/
theorem chained_call_edits_descend :
    collect goLib (fileSetOf srcChained) astChained
      = [⟨27, 30, "(\n  2,\n)".toList⟩, ⟨22, 25, "(\n  1,\n)".toList⟩] ∧
    ¬ startsAscending (collect goLib (fileSetOf srcChained) astChained) ∧
    splice srcChained (collect goLib (fileSetOf srcChained) astChained)
      = some "package p\n\nvar x = a.b(\n  1(\n  2,\n).c(2)\n".toList := by
  decide

/-- C3 (nested calls), evaluated on `var x = f(g(1, 2), 3)`: both calls
produce an edit, and the spliced text has the seven bytes `,\n), 3)` between the
closing parenthesis of the rewritten outer list and the rest of the original. -/
theorem nested_call_splice_damaged :
    collect goLib (fileSetOf srcNested) astNested
      = [⟨20, 32, "(\n  g(1, 2),\n  3,\n)".toList⟩, ⟨22, 28, "(\n  1,\n  2,\n)".toList⟩] ∧
    splice srcNested (collect goLib (fileSetOf srcNested) astNested)
      = some (srcNested.take 20 ++ "(\n  g(1, 2),\n  3,\n)".toList ++ ",\n), 3)".toList
          ++ srcNested.drop 32) ∧
    splice srcNested (collect goLib (fileSetOf srcNested) astNested)
      ≠ some (srcNested.take 20 ++ "(\n  g(1, 2),\n  3,\n)".toList ++ srcNested.drop 32) := by
  decide

/-- C4 (non-overlap), evaluated on `var x = f(g(1, 2), 3)`: the walk collects
the two distinct edits `[20, 32)` and `[22, 28)`, and they are not disjoint. -/
theorem nested_call_edits_overlap :
    ∃ a b, a ∈ collect goLib (fileSetOf srcNested) astNested ∧
      b ∈ collect goLib (fileSetOf srcNested) astNested ∧ a ≠ b ∧
      (a.start, a.end_) = (20, 32) ∧ (b.start, b.end_) = (22, 28) ∧ ¬ disjointRanges a b := by
  refine ⟨⟨20, 32, "(\n  g(1, 2),\n  3,\n)".toList⟩, ⟨22, 28, "(\n  1,\n  2,\n)".toList⟩, ?_⟩
  decide

/-! ## The walk visits every node -/

theorem visit_eq {σ : Type} (g : σ → Option Node → σ × Bool)
    (h1 : ∀ s n, (g s n).2 = true) (h2 : ∀ s, (g s none).1 = s)
    (s : σ) (n : Node) (k : σ → σ) : visit g s n k = k (g s (some n)).1 := by
  simp [visit, h1, h2]

mutual
theorem Inspect_eq_foldl {σ : Type} (g : σ → Option Node → σ × Bool)
    (h1 : ∀ s n, (g s n).2 = true) (h2 : ∀ s, (g s none).1 = s) :
    ∀ (n : Node) (s : σ), Inspect g s n = (allNodes n).foldl (fun s n => (g s (some n)).1) s
  | .File nm ds, s => by
    simp only [Inspect, allNodes, visit_eq g h1 h2, List.foldl_cons, List.foldl_append]
    rw [Inspect_eq_foldl g h1 h2 nm, InspectList_eq_foldl g h1 h2 ds]
  | .Ident p n, s => by
    simp [Inspect, allNodes, visit_eq g h1 h2]
  | .BasicLit p v, s => by
    simp [Inspect, allNodes, visit_eq g h1 h2]
  | .FuncDecl recv nm ty body, s => by
    simp only [Inspect, allNodes, visit_eq g h1 h2, List.foldl_cons, List.foldl_append]
    rw [InspectOptFieldList_eq_foldl g h1 h2 recv, Inspect_eq_foldl g h1 h2 nm,
      InspectFuncType_eq_foldl g h1 h2 ty, InspectOpt_eq_foldl g h1 h2 body]
  | .CallExpr fn l args e r, s => by
    simp only [Inspect, allNodes, visit_eq g h1 h2, List.foldl_cons, List.foldl_append]
    rw [Inspect_eq_foldl g h1 h2 fn, InspectList_eq_foldl g h1 h2 args]
  | .InterfaceType ms, s => by
    simp only [Inspect, allNodes, visit_eq g h1 h2, List.foldl_cons]
    rw [InspectFieldList_eq_foldl g h1 h2 ms]
  | .ofFuncType t, s => by
    simp only [Inspect, allNodes]
    rw [InspectFuncType_eq_foldl g h1 h2 t]
  | .ofFieldList l, s => by
    simp only [Inspect, allNodes]
    rw [InspectFieldList_eq_foldl g h1 h2 l]
  | .ofField x, s => by
    simp only [Inspect, allNodes]
    rw [InspectField_eq_foldl g h1 h2 x]
  | .Other k cs, s => by
    simp only [Inspect, allNodes, visit_eq g h1 h2, List.foldl_cons]
    rw [InspectList_eq_foldl g h1 h2 cs]
theorem InspectList_eq_foldl {σ : Type} (g : σ → Option Node → σ × Bool)
    (h1 : ∀ s n, (g s n).2 = true) (h2 : ∀ s, (g s none).1 = s) :
    ∀ (ns : List Node) (s : σ),
      InspectList g s ns = (allNodesList ns).foldl (fun s n => (g s (some n)).1) s
  | [], s => by simp [InspectList, allNodesList]
  | n :: ns, s => by
    simp only [InspectList, allNodesList, List.foldl_append]
    rw [Inspect_eq_foldl g h1 h2 n, InspectList_eq_foldl g h1 h2 ns]
theorem InspectOpt_eq_foldl {σ : Type} (g : σ → Option Node → σ × Bool)
    (h1 : ∀ s n, (g s n).2 = true) (h2 : ∀ s, (g s none).1 = s) :
    ∀ (n : Option Node) (s : σ),
      InspectOpt g s n = (allNodesOpt n).foldl (fun s n => (g s (some n)).1) s
  | none, s => by simp [InspectOpt, allNodesOpt]
  | some n, s => by
    simp only [InspectOpt, allNodesOpt]
    rw [Inspect_eq_foldl g h1 h2 n]
theorem InspectFuncType_eq_foldl {σ : Type} (g : σ → Option Node → σ × Bool)
    (h1 : ∀ s n, (g s n).2 = true) (h2 : ∀ s, (g s none).1 = s) :
    ∀ (t : FuncType) (s : σ),
      InspectFuncType g s t = (allNodesFuncType t).foldl (fun s n => (g s (some n)).1) s
  | .mk tp ps rs, s => by
    simp only [InspectFuncType, allNodesFuncType, visit_eq g h1 h2, List.foldl_cons,
      List.foldl_append]
    rw [InspectOptFieldList_eq_foldl g h1 h2 tp, InspectOptFieldList_eq_foldl g h1 h2 ps,
      InspectOptFieldList_eq_foldl g h1 h2 rs]
theorem InspectOptFieldList_eq_foldl {σ : Type} (g : σ → Option Node → σ × Bool)
    (h1 : ∀ s n, (g s n).2 = true) (h2 : ∀ s, (g s none).1 = s) :
    ∀ (l : Option FieldList) (s : σ),
      InspectOptFieldList g s l
        = (allNodesOptFieldList l).foldl (fun s n => (g s (some n)).1) s
  | none, s => by simp [InspectOptFieldList, allNodesOptFieldList]
  | some l, s => by
    simp only [InspectOptFieldList, allNodesOptFieldList]
    rw [InspectFieldList_eq_foldl g h1 h2 l]
theorem InspectFieldList_eq_foldl {σ : Type} (g : σ → Option Node → σ × Bool)
    (h1 : ∀ s n, (g s n).2 = true) (h2 : ∀ s, (g s none).1 = s) :
    ∀ (l : FieldList) (s : σ),
      InspectFieldList g s l = (allNodesFieldList l).foldl (fun s n => (g s (some n)).1) s
  | .mk o l c, s => by
    simp only [InspectFieldList, allNodesFieldList, visit_eq g h1 h2, List.foldl_cons]
    rw [InspectFields_eq_foldl g h1 h2 l]
theorem InspectFields_eq_foldl {σ : Type} (g : σ → Option Node → σ × Bool)
    (h1 : ∀ s n, (g s n).2 = true) (h2 : ∀ s, (g s none).1 = s) :
    ∀ (l : List Field) (s : σ),
      InspectFields g s l = (allNodesFields l).foldl (fun s n => (g s (some n)).1) s
  | [], s => by simp [InspectFields, allNodesFields]
  | x :: xs, s => by
    simp only [InspectFields, allNodesFields, List.foldl_append]
    rw [InspectField_eq_foldl g h1 h2 x, InspectFields_eq_foldl g h1 h2 xs]
theorem InspectField_eq_foldl {σ : Type} (g : σ → Option Node → σ × Bool)
    (h1 : ∀ s n, (g s n).2 = true) (h2 : ∀ s, (g s none).1 = s) :
    ∀ (x : Field) (s : σ),
      InspectField g s x = (allNodesField x).foldl (fun s n => (g s (some n)).1) s
  | .mk ns t, s => by
    simp only [InspectField, allNodesField, visit_eq g h1 h2, List.foldl_cons,
      List.foldl_append]
    rw [InspectList_eq_foldl g h1 h2 ns, Inspect_eq_foldl g h1 h2 t]
end

/-! ## The closure of the walk, node by node -/

theorem inspectFunc_snd (lib : Lib) (fset : FileSet) (mods : List modification)
    (n : Option Node) : (inspectFunc lib fset mods n).2 = true := by
  unfold inspectFunc
  split <;> (try dsimp only) <;> (try split_ifs) <;> rfl

theorem inspectFunc_none (lib : Lib) (fset : FileSet) (mods : List modification) :
    (inspectFunc lib fset mods none).1 = mods := by
  simp [inspectFunc]

theorem interfaceMethods_append (lib : Lib) (fset : FileSet) :
    ∀ (methods : List Field) (mods : List modification),
      interfaceMethods lib fset mods methods = mods ++ interfaceMethods lib fset [] methods := by
  intro methods
  induction methods with
  | nil => intro mods; simp [interfaceMethods]
  | cons x xs ih =>
    intro mods
    rcases x with ⟨names, ty⟩
    cases ty with
    | ofFuncType t =>
      rcases t with ⟨tp, _ | ⟨o, l, c⟩, rs⟩
      · simp only [interfaceMethods]; exact ih mods
      · simp only [interfaceMethods]
        split_ifs
        · exact ih mods
        · rw [ih (mods ++ _), ih ([] ++ _)]; simp
        · exact ih mods
    | _ => simp only [interfaceMethods]; exact ih mods

theorem inspectFunc_append (lib : Lib) (fset : FileSet) (mods : List modification)
    (n : Node) :
    (inspectFunc lib fset mods (some n)).1 = mods ++ (inspectFunc lib fset [] (some n)).1 := by
  unfold inspectFunc
  split <;> (try dsimp only) <;> (try split_ifs) <;> (try simp)
  exact interfaceMethods_append lib fset _ mods

theorem foldl_inspectFunc (lib : Lib) (fset : FileSet) :
    ∀ (nodes : List Node) (mods : List modification),
      nodes.foldl (fun s n => (inspectFunc lib fset s (some n)).1) mods
        = mods ++ nodes.flatMap fun n => (inspectFunc lib fset [] (some n)).1 := by
  intro nodes
  induction nodes with
  | nil => intro mods; simp
  | cons n ns ih =>
    intro mods
    rw [List.foldl_cons, ih, inspectFunc_append]
    simp [List.flatMap_cons]

theorem collect_eq_flatMap (lib : Lib) (fset : FileSet) (f : Node) :
    collect lib fset f = (allNodes f).flatMap fun n => (inspectFunc lib fset [] (some n)).1 := by
  unfold collect
  rw [Inspect_eq_foldl _ (inspectFunc_snd lib fset) (inspectFunc_none lib fset), foldl_inspectFunc]
  simp

theorem interfaceMethods_ranges (lib : Lib) (fset : FileSet) :
    ∀ (methods : List Field),
      (interfaceMethods lib fset [] methods).map (fun m => (m.start, m.end_))
        = ((methods.filterMap methodParams).filter fun l => decide (qualifies fset l)).map
            (rangeOf fset) := by
  intro methods
  induction methods with
  | nil => simp [interfaceMethods]
  | cons x xs ih =>
    rcases x with ⟨names, ty⟩
    cases ty with
    | ofFuncType t =>
      rcases t with ⟨tp, _ | ⟨o, l, c⟩, rs⟩
      · simp only [interfaceMethods, List.filterMap_cons, methodParams]; exact ih
      · simp only [interfaceMethods, List.filterMap_cons, methodParams]
        split_ifs with h0 hline
        · rw [ih, List.filter_cons_of_neg]
          simp [qualifies, h0]
        · rw [interfaceMethods_append, List.map_append, ih, List.filter_cons_of_pos]
          · simp [rangeOf]
          · simp [qualifies, h0, hline]
        · rw [ih, List.filter_cons_of_neg]
          simp [qualifies, hline]
    | _ => simp only [interfaceMethods, List.filterMap_cons, methodParams]; exact ih

theorem inspectFunc_ranges (lib : Lib) (fset : FileSet) (n : Node) :
    ((inspectFunc lib fset [] (some n)).1).map (fun m => (m.start, m.end_))
      = ((listsOf n).filter fun l => decide (qualifies fset l)).map (rangeOf fset) := by
  cases n with
  | FuncDecl recv nm ty body =>
    rcases ty with ⟨tp, _ | ⟨o, l, c⟩, rs⟩
    · simp [inspectFunc, listsOf]
    · simp only [inspectFunc, listsOf]
      split_ifs with h0 hline
      · rw [List.filter_cons_of_neg]
        · simp
        · simp [qualifies, h0]
      · rw [List.filter_cons_of_pos]
        · simp [rangeOf]
        · simp [qualifies, h0, hline]
      · rw [List.filter_cons_of_neg]
        · simp
        · simp [qualifies, hline]
  | CallExpr fn lp args e rp =>
    simp only [inspectFunc, listsOf]
    split_ifs with hv hline
    · rw [List.filter_cons_of_pos]
      · simp [rangeOf]
      · simp only [Pos.IsValid, Bool.and_eq_true, bne_iff_ne, ne_eq, decide_eq_true_eq] at hv
        simp only [qualifies, decide_eq_true_eq]
        exact ⟨by omega, hline, fun _ => ⟨hv.1.1, hv.1.2⟩⟩
    · rw [List.filter_cons_of_neg]
      · simp
      · simp [qualifies, hline]
    · rw [List.filter_cons_of_neg]
      · simp
      · simp only [Pos.IsValid, Bool.and_eq_true, bne_iff_ne, ne_eq, decide_eq_true_eq] at hv
        simp only [qualifies, decide_eq_true_eq]
        rintro ⟨h1, _, h3⟩
        exact hv ⟨h3 trivial, by omega⟩
  | InterfaceType ms =>
    rcases ms with ⟨o, methods, c⟩
    simp only [inspectFunc, listsOf]
    exact interfaceMethods_ranges lib fset methods
  | _ => simp [inspectFunc, listsOf]

theorem recordingFunc_foldl (lib : Lib) (fset : FileSet) :
    ∀ (nodes seen : List Node) (mods : List modification),
      nodes.foldl (fun s n => (recordingFunc lib fset s (some n)).1) (seen, mods)
        = (seen ++ nodes, nodes.foldl (fun s n => (inspectFunc lib fset s (some n)).1) mods) := by
  intro nodes
  induction nodes with
  | nil => intro seen mods; simp
  | cons n ns ih =>
    intro seen mods
    rw [List.foldl_cons]
    have hstep : (recordingFunc lib fset (seen, mods) (some n)).1
        = (seen ++ [n], (inspectFunc lib fset mods (some n)).1) := by
      simp [recordingFunc, Option.toList]
    rw [hstep, ih]
    simp

theorem collect_ranges_eq_candidates (lib : Lib) (fset : FileSet) (f : Node) :
    (collect lib fset f).map (fun m => (m.start, m.end_))
      = (candidates fset f).map (rangeOf fset) := by
  rw [collect_eq_flatMap, candidates]
  generalize allNodes f = nodes
  induction nodes with
  | nil => simp
  | cons n ns ih =>
    simp only [List.flatMap_cons, List.map_append, List.filter_append]
    rw [ih, inspectFunc_ranges]

/-- C6 (candidate predicate): the walk calls its closure on every node of the
tree, and the collected edits are, in order, the byte ranges of exactly the
lists of the three shapes that are non-empty and have both parentheses on the
same line (for a call, with both positions valid): one edit for each such list,
none for any other. -/
theorem walk_collects_candidates (lib : Lib) (fset : FileSet) (f : Node) :
    Inspect (recordingFunc lib fset) ([], []) f = (allNodes f, collect lib fset f) ∧
    (collect lib fset f).map (fun m => (m.start, m.end_))
      = (candidates fset f).map (rangeOf fset) := by
  constructor
  · rw [Inspect_eq_foldl (recordingFunc lib fset)
      (fun s n => inspectFunc_snd lib fset s.2 n)
      (fun s => by simp [recordingFunc, inspectFunc_none]),
      recordingFunc_foldl, collect,
      Inspect_eq_foldl _ (inspectFunc_snd lib fset) (inspectFunc_none lib fset)]
    simp
  · exact collect_ranges_eq_candidates lib fset f

/-! ## The renderers -/

theorem printNames_eq (lib : Lib) (fset : FileSet) :
    ∀ (names : List Node) (acc : List Text),
      printNames lib fset acc names = acc ++ names.map (lib.Fprint fset) := by
  intro names
  induction names with
  | nil => intro acc; simp [printNames]
  | cons n ns ih => intro acc; simp [printNames, ih]

theorem writeField_eq (lib : Lib) (fset : FileSet) (buf : Text) (field : Field) :
    writeField lib fset buf field = buf ++ elementLine (fieldText lib fset field) := by
  rcases field with ⟨names, ty⟩
  cases names with
  | nil => simp [writeField, fieldText, elementLine]
  | cons n ns => simp [writeField, fieldText, elementLine, printNames_eq]

theorem writeFields_eq (lib : Lib) (fset : FileSet) :
    ∀ (list : List Field) (buf : Text),
      writeFields lib fset buf list
        = buf ++ (list.map (fieldText lib fset)).flatMap elementLine := by
  intro list
  induction list with
  | nil => intro buf; simp [writeFields]
  | cons x xs ih => intro buf; simp [writeFields, ih, writeField_eq, List.flatMap_cons]

theorem writeArgs_eq (lib : Lib) (fset : FileSet) :
    ∀ (args : List Node) (buf : Text),
      writeArgs lib fset buf args = buf ++ (args.map (argText lib fset)).flatMap elementLine := by
  intro args
  induction args with
  | nil => intro buf; simp [writeArgs]
  | cons x xs ih =>
    intro buf
    simp [writeArgs, ih, argText, elementLine, List.flatMap_cons]

/-- C7 (renderer output): the replacement of a call candidate and of a
parameter-list candidate is `(`, a line break, then for each element in order two
spaces, its text, a comma and a line break, then `)`; its last byte is `)`; and
the edit the walk appends for a call, a function declaration or an interface
method carries that text. -/
theorem replacement_one_per_line (lib : Lib) (fset : FileSet) (args : List Node)
    (list : List Field) :
    newArgs lib fset args = onePerLine (args.map (argText lib fset)) ∧
    newParams lib fset list = onePerLine (list.map (fieldText lib fset)) ∧
    (newArgs lib fset args).getLast? = some ')' ∧
    (newParams lib fset list).getLast? = some ')' ∧
    (∀ mods fn l e r,
      (inspectFunc lib fset mods (some (.CallExpr fn l args e r))).1 = mods ∨
      (inspectFunc lib fset mods (some (.CallExpr fn l args e r))).1
        = mods ++ [⟨(fset l).Offset, (fset r).Offset + 1,
            onePerLine (args.map (argText lib fset))⟩]) ∧
    (∀ mods recv nm tp o c rs body,
      (inspectFunc lib fset mods
          (some (.FuncDecl recv nm (.mk tp (some (.mk o list c)) rs) body))).1 = mods ∨
      (inspectFunc lib fset mods
          (some (.FuncDecl recv nm (.mk tp (some (.mk o list c)) rs) body))).1
        = mods ++ [⟨(fset o).Offset, (fset c).Offset + 1,
            onePerLine (list.map (fieldText lib fset))⟩]) ∧
    (∀ mods names tp o c rs,
      interfaceMethods lib fset mods [.mk names (.ofFuncType (.mk tp (some (.mk o list c)) rs))]
        = mods ∨
      interfaceMethods lib fset mods [.mk names (.ofFuncType (.mk tp (some (.mk o list c)) rs))]
        = mods ++ [⟨(fset o).Offset, (fset c).Offset + 1,
            onePerLine (list.map (fieldText lib fset))⟩]) := by
  have h1 : newArgs lib fset args = onePerLine (args.map (argText lib fset)) := by
    simp [newArgs, onePerLine, writeArgs_eq]
  have h2 : newParams lib fset list = onePerLine (list.map (fieldText lib fset)) := by
    simp [newParams, onePerLine, writeFields_eq]
  have hlast : ∀ texts : List Text, (onePerLine texts).getLast? = some ')' := by
    intro texts
    have h : onePerLine texts = ("(\n".toList ++ texts.flatMap elementLine) ++ [')'] := rfl
    rw [h, List.getLast?_append]
    rfl
  refine ⟨h1, h2, h1 ▸ hlast _, h2 ▸ hlast _, ?_, ?_, ?_⟩
  · intro mods fn l e r
    simp only [inspectFunc]
    split_ifs
    · right; rw [h1]
    · left; rfl
    · left; rfl
  · intro mods recv nm tp o c rs body
    simp only [inspectFunc]
    split_ifs
    · left; rfl
    · right; rw [h2]
    · left; rfl
  · intro mods names tp o c rs
    simp only [interfaceMethods]
    split_ifs
    · left; rfl
    · right; rw [h2]
    · left; rfl

/-- C8 (shape preservation): a parameter group with names `n1..nk` (`k ≥ 1`)
and type `T`, wherever it stands in the list, adds the one line
`  n1, ..., nk T,` to the buffer; for `(a, b int, c string)` the replacement is
the block with the two lines `a, b int,` and `c string,`, and it is the one edit
of the declaration. -/
theorem grouped_names_one_line (lib : Lib) (fset : FileSet) (buf : Text)
    (before after : List Field) (n : Node) (ns : List Node) (ty : Node) :
    writeFields lib fset buf (before ++ [.mk (n :: ns) ty] ++ after)
      = writeFields lib fset
          (writeFields lib fset buf before ++ ("  ".toList
            ++ (Join ((n :: ns).map (lib.Fprint fset)) ", ".toList ++ " ".toList
                ++ lib.TrimSpace (lib.Fprint fset ty)) ++ ",\n".toList)) after ∧
    newParams goLib (fileSetOf srcGrouped) paramsGrouped
      = "(\n  a, b int,\n  c string,\n)".toList ∧
    collect goLib (fileSetOf srcGrouped) astGrouped
      = [⟨17, 37, "(\n  a, b int,\n  c string,\n)".toList⟩] := by
  refine ⟨?_, by decide, by decide⟩
  simp [writeFields_eq, fieldText, elementLine, List.flatMap_append]

/-! ## `processFile` as a whole -/

/-- C5 (idempotence), evaluated on `var x = f(g(1,        2), 3)`: the first run
succeeds and writes `f(` / `g(1, 2),` / `3,` / `)`; on that output the walk
still finds the candidate `g(1, 2)`, and the second run rewrites the file again. -/
theorem padded_nested_second_run_rewrites :
    processFile goLib (some srcPadded)
      = [.ReadFile, .ParseFile srcPadded, .Source splicedPadded, .WriteFile fmtPadded] ∧
    transform goLib srcPadded = fmtPadded ∧
    collect goLib (fileSetOf fmtPadded) astFmtPadded
      = [⟨24, 30, "(\n  1,\n  2,\n)".toList⟩] ∧
    processFile goLib (some fmtPadded)
      = [.ReadFile, .ParseFile fmtPadded, .Source splicedFmtPadded, .WriteFile fmtTwice] ∧
    transform goLib (transform goLib srcPadded) ≠ transform goLib srcPadded := by
  decide

theorem processFile_no_modifications (lib : Lib) (src : Text) (f : Node) (fset : FileSet)
    (hparse : lib.ParseFile src = some (f, fset)) (hnone : collect lib fset f = []) :
    processFile lib (some src) = [.ReadFile, .ParseFile src] := by
  simp [processFile, hparse, hnone]

/-- C9 (no candidates, no write): when the file parses and the walk collects
no edit, `processFile` ends after the parse: the formatter is not called,
nothing is written and the stored bytes stay the same; and the walk collects no
edit when every list of the three shapes is empty or has its parentheses on
different lines. -/
theorem no_candidates_no_write (lib : Lib) (src : Text) (f : Node) (fset : FileSet)
    (hparse : lib.ParseFile src = some (f, fset)) :
    (collect lib fset f = [] →
      processFile lib (some src) = [.ReadFile, .ParseFile src] ∧
      (∀ t, Event.Source t ∉ processFile lib (some src)) ∧
      (∀ d, Event.WriteFile d ∉ processFile lib (some src)) ∧
      storedAfter src (processFile lib (some src)) = src) ∧
    ((∀ l ∈ (allNodes f).flatMap listsOf,
        l.count = 0 ∨ (fset l.Opening).Line ≠ (fset l.Closing).Line) →
      collect lib fset f = []) := by
  constructor
  · intro hnone
    rw [processFile_no_modifications lib src f fset hparse hnone]
    simp [storedAfter]
  · intro hall
    have hc : candidates fset f = [] := by
      unfold candidates
      rw [List.filter_eq_nil_iff]
      intro l hl
      simp only [decide_eq_true_eq, qualifies]
      rintro ⟨h1, h2, _⟩
      rcases hall l hl with h | h
      · exact h1 h
      · exact h h2
    have hmap := (collect_ranges_eq_candidates lib fset f)
    rw [hc] at hmap
    simpa using hmap

/-- Witness of C9: the file `func f(` / `a int,` / `)`, whose parameter list
spans three lines. -/
theorem no_candidates_no_write_witness :
    goLib.ParseFile srcMultiLine = some (astMultiLine, fileSetOf srcMultiLine) ∧
    collect goLib (fileSetOf srcMultiLine) astMultiLine = [] ∧
    (∀ l ∈ (allNodes astMultiLine).flatMap listsOf,
        l.count = 0 ∨ (fileSetOf srcMultiLine l.Opening).Line
          ≠ (fileSetOf srcMultiLine l.Closing).Line) ∧
    processFile goLib (some srcMultiLine) = [.ReadFile, .ParseFile srcMultiLine] ∧
    storedAfter srcMultiLine (processFile goLib (some srcMultiLine)) = srcMultiLine :=
  have h := no_candidates_no_write goLib srcMultiLine astMultiLine (fileSetOf srcMultiLine) rfl
  have hall : ∀ l ∈ (allNodes astMultiLine).flatMap listsOf,
      l.count = 0 ∨ (fileSetOf srcMultiLine l.Opening).Line
        ≠ (fileSetOf srcMultiLine l.Closing).Line := by decide
  ⟨rfl, h.2 hall, hall, (h.1 (h.2 hall)).1, (h.1 (h.2 hall)).2.2.2⟩

/-- C10 (skip on failure): when the parse fails, or when the formatter fails
on the spliced text, `processFile` writes nothing and the stored bytes stay the
same; every write comes after a successful parse and a successful format, and
its bytes are the output of the formatter on the spliced text. -/
theorem skip_on_failure (lib : Lib) (src : Text) :
    (lib.ParseFile src = none →
      (∀ d, Event.WriteFile d ∉ processFile lib (some src)) ∧
      storedAfter src (processFile lib (some src)) = src) ∧
    (∀ f fset newSrc, lib.ParseFile src = some (f, fset) →
      splice src (collect lib fset f) = some newSrc → lib.Source newSrc = none →
      (∀ d, Event.WriteFile d ∉ processFile lib (some src)) ∧
      storedAfter src (processFile lib (some src)) = src) ∧
    (∀ d, Event.WriteFile d ∈ processFile lib (some src) →
      ∃ f fset newSrc, lib.ParseFile src = some (f, fset) ∧
        splice src (collect lib fset f) = some newSrc ∧ lib.Source newSrc = some d ∧
        processFile lib (some src)
          = [.ReadFile, .ParseFile src, .Source newSrc, .WriteFile d]) := by
  refine ⟨?_, ?_, ?_⟩
  · intro hparse
    simp [processFile, hparse, storedAfter]
  · intro f fset newSrc hparse hsplice hfmt
    by_cases hlen : (collect lib fset f).length = 0
    · simp [processFile, hparse, hlen, storedAfter]
    · simp [processFile, hparse, hlen, hsplice, hfmt, storedAfter]
  · intro d hd
    cases hparse : lib.ParseFile src with
    | none => simp [processFile, hparse] at hd
    | some p =>
      obtain ⟨f, fset⟩ := p
      by_cases hlen : (collect lib fset f).length = 0
      · simp [processFile, hparse, hlen] at hd
      · cases hsplice : splice src (collect lib fset f) with
        | none => simp [processFile, hparse, hlen, hsplice] at hd
        | some newSrc =>
          cases hfmt : lib.Source newSrc with
          | none => simp [processFile, hparse, hlen, hsplice, hfmt] at hd
          | some formatted =>
            simp [processFile, hparse, hlen, hsplice, hfmt] at hd
            subst hd
            exact ⟨f, fset, newSrc, rfl, hsplice, hfmt, by
              simp [processFile, hparse, hlen, hsplice, hfmt]⟩

/-- Witness of C10: a text that does not parse; `var x = f(g(1, 2), 3)`, whose
spliced text the formatter rejects; `var x = f(g(1,        2), 3)`, which is
written. -/
theorem skip_on_failure_witness :
    (goLib.ParseFile "x".toList = none ∧
      storedAfter "x".toList (processFile goLib (some "x".toList)) = "x".toList) ∧
    (goLib.Source "package p\n\nvar x = f(\n  g(1, 2),\n  3,\n),\n), 3)\n".toList = none ∧
      storedAfter srcNested (processFile goLib (some srcNested)) = srcNested) ∧
    (Event.WriteFile fmtPadded ∈ processFile goLib (some srcPadded) ∧
      goLib.Source splicedPadded = some fmtPadded) :=
  ⟨⟨rfl, ((skip_on_failure goLib "x".toList).1 rfl).2⟩,
   ⟨rfl, ((skip_on_failure goLib srcNested).2.1 astNested (fileSetOf srcNested)
      "package p\n\nvar x = f(\n  g(1, 2),\n  3,\n),\n), 3)\n".toList rfl (by decide) rfl).2⟩,
   ⟨by decide, by decide⟩⟩

/-! ## Which lists are edited -/

/-- C11 (only the three shapes), evaluated on the interface with the type
element `func(x int)`: the file has no function declaration, no call and no
interface method, and the walk still collects the edit `[35, 42)` for the
parameter list of the embedded function type; on the file with a receiver
list, a result list and a function type outside an interface it collects none. -/
theorem embedded_function_type_edited :
    collect goLib (fileSetOf srcEmbedded) astEmbedded
      = [⟨35, 42, "(\n  x int,\n)".toList⟩] ∧
    (allNodes astEmbedded).flatMap shapesOf = [] ∧
    collect goLib (fileSetOf srcOtherLists) astOtherLists = [] := by
  decide

theorem edits_start_at_listed_lists (lib : Lib) (fset : FileSet) (f : Node) :
    (∀ m ∈ collect lib fset f, ∃ n ∈ allNodes f, ∃ l ∈ listsOf n,
      qualifies fset l ∧ m.start = (fset l.Opening).Offset) ∧
    (∀ mods l, (inspectFunc lib fset mods (some (.ofFieldList l))).1 = mods) ∧
    (∀ mods t, (inspectFunc lib fset mods (some (.ofFuncType t))).1 = mods) ∧
    (∀ mods x, (inspectFunc lib fset mods (some (.ofField x))).1 = mods) ∧
    (∀ mods k cs, (inspectFunc lib fset mods (some (.Other k cs))).1 = mods) ∧
    (∀ mods recv1 recv2 nm tp ps rs1 rs2 body,
      inspectFunc lib fset mods (some (.FuncDecl recv1 nm (.mk tp ps rs1) body))
        = inspectFunc lib fset mods (some (.FuncDecl recv2 nm (.mk tp ps rs2) body))) := by
  refine ⟨?_, fun _ _ => rfl, fun _ _ => rfl, fun _ _ => rfl, fun _ _ _ => rfl, ?_⟩
  · intro m hm
    have hmem : (m.start, m.end_) ∈ (candidates fset f).map (rangeOf fset) := by
      rw [← collect_ranges_eq_candidates lib fset f]
      exact List.mem_map.mpr ⟨m, hm, rfl⟩
    obtain ⟨l, hl, hrange⟩ := List.mem_map.mp hmem
    unfold candidates at hl
    obtain ⟨hl1, hq⟩ := List.mem_filter.mp hl
    obtain ⟨n, hn, hln⟩ := List.mem_flatMap.mp hl1
    simp only [rangeOf, Prod.mk.injEq] at hrange
    exact ⟨n, hn, l, hln, of_decide_eq_true hq, hrange.1.symm⟩
  · intro mods recv1 recv2 nm tp ps rs1 rs2 body
    cases ps with
    | none => rfl
    | some l => rcases l with ⟨o, list, c⟩; rfl

theorem mem_collect_of_node (lib : Lib) (fset : FileSet) (f n : Node) (m : modification)
    (hn : n ∈ allNodes f) (hm : m ∈ (inspectFunc lib fset [] (some n)).1) :
    m ∈ collect lib fset f := by
  rw [collect_eq_flatMap, List.mem_flatMap]
  exact ⟨n, hn, hm⟩

theorem mem_interfaceMethods (lib : Lib) (fset : FileSet) (names : List Node)
    (tp rs : Option FieldList) (o c : Pos) (list : List Field)
    (hne : list.length ≠ 0) (hline : (fset o).Line = (fset c).Line) :
    ∀ (methods : List Field),
      .mk names (.ofFuncType (.mk tp (some (.mk o list c)) rs)) ∈ methods →
      (⟨(fset o).Offset, (fset c).Offset + 1, newParams lib fset list⟩ : modification)
        ∈ interfaceMethods lib fset [] methods := by
  intro methods
  induction methods with
  | nil => intro h; simp at h
  | cons x xs ih =>
    intro h
    rw [interfaceMethods_append]
    rcases List.mem_cons.mp h with h | h
    · subst h
      have hhead : interfaceMethods lib fset []
          (.mk names (.ofFuncType (.mk tp (some (.mk o list c)) rs)) :: xs)
          = [⟨(fset o).Offset, (fset c).Offset + 1, newParams lib fset list⟩]
            ++ interfaceMethods lib fset [] xs := by
        simp only [interfaceMethods, if_neg hne, if_pos hline]
        rw [interfaceMethods_append]
        simp
      rw [List.nil_append, hhead]
      simp
    · have hx := ih h
      rcases x with ⟨xn, xt⟩
      have hsub : ∀ m, m ∈ interfaceMethods lib fset [] xs →
          m ∈ interfaceMethods lib fset [] (.mk xn xt :: xs) := by
        intro m hm
        cases xt with
        | ofFuncType t =>
          rcases t with ⟨tp2, _ | ⟨o2, l2, c2⟩, rs2⟩
          · simpa only [interfaceMethods] using hm
          · simp only [interfaceMethods]
            split_ifs
            · exact hm
            · rw [interfaceMethods_append]; exact List.mem_append_right _ hm
            · exact hm
        | _ => simpa only [interfaceMethods] using hm
      rw [List.nil_append]
      exact hsub _ hx

/-- C13 (single-element lists): a call with the one argument `x`, a function
declaration and an interface method with the one parameter group `x`, with both
parentheses on the same line (valid positions for the call), each give the edit
whose replacement is `(`, line break, two spaces, the text of `x`, a comma, a
line break and `)`; the edit is among those the walk of the file collects. -/
theorem single_element_list_edited (lib : Lib) (fset : FileSet) :
    (∀ mods fn l x e r, l ≠ 0 → r ≠ 0 → (fset l).Line = (fset r).Line →
      (inspectFunc lib fset mods (some (.CallExpr fn l [x] e r))).1
        = mods ++ [⟨(fset l).Offset, (fset r).Offset + 1,
            "(\n  ".toList ++ argText lib fset x ++ ",\n)".toList⟩]) ∧
    (∀ mods recv nm tp o x c rs body, (fset o).Line = (fset c).Line →
      (inspectFunc lib fset mods
          (some (.FuncDecl recv nm (.mk tp (some (.mk o [x] c)) rs) body))).1
        = mods ++ [⟨(fset o).Offset, (fset c).Offset + 1,
            "(\n  ".toList ++ fieldText lib fset x ++ ",\n)".toList⟩]) ∧
    (∀ mods names tp o x c rs, (fset o).Line = (fset c).Line →
      interfaceMethods lib fset mods [.mk names (.ofFuncType (.mk tp (some (.mk o [x] c)) rs))]
        = mods ++ [⟨(fset o).Offset, (fset c).Offset + 1,
            "(\n  ".toList ++ fieldText lib fset x ++ ",\n)".toList⟩]) ∧
    (∀ f fn l x e r, .CallExpr fn l [x] e r ∈ allNodes f → l ≠ 0 → r ≠ 0 →
      (fset l).Line = (fset r).Line →
      (⟨(fset l).Offset, (fset r).Offset + 1,
          "(\n  ".toList ++ argText lib fset x ++ ",\n)".toList⟩ : modification)
        ∈ collect lib fset f) ∧
    (∀ f recv nm tp o x c rs body,
      .FuncDecl recv nm (.mk tp (some (.mk o [x] c)) rs) body ∈ allNodes f →
      (fset o).Line = (fset c).Line →
      (⟨(fset o).Offset, (fset c).Offset + 1,
          "(\n  ".toList ++ fieldText lib fset x ++ ",\n)".toList⟩ : modification)
        ∈ collect lib fset f) ∧
    (∀ f ob methods cb names tp o x c rs, .InterfaceType (.mk ob methods cb) ∈ allNodes f →
      .mk names (.ofFuncType (.mk tp (some (.mk o [x] c)) rs)) ∈ methods →
      (fset o).Line = (fset c).Line →
      (⟨(fset o).Offset, (fset c).Offset + 1,
          "(\n  ".toList ++ fieldText lib fset x ++ ",\n)".toList⟩ : modification)
        ∈ collect lib fset f) := by
  have hargs : ∀ x, newArgs lib fset [x]
      = "(\n  ".toList ++ argText lib fset x ++ ",\n)".toList := by
    intro x; simp [newArgs, writeArgs, argText]
  have hparams : ∀ x, newParams lib fset [x]
      = "(\n  ".toList ++ fieldText lib fset x ++ ",\n)".toList := by
    intro x; simp [newParams, writeFields, writeField_eq, elementLine]
  have hcall : ∀ mods fn l x e r, l ≠ 0 → r ≠ 0 → (fset l).Line = (fset r).Line →
      (inspectFunc lib fset mods (some (.CallExpr fn l [x] e r))).1
        = mods ++ [⟨(fset l).Offset, (fset r).Offset + 1,
            "(\n  ".toList ++ argText lib fset x ++ ",\n)".toList⟩] := by
    intro mods fn l x e r hl hr hline
    have hv : (Pos.IsValid l && Pos.IsValid r && decide ([x].length > 0)) = true := by
      simp [Pos.IsValid, hl, hr]
    simp only [inspectFunc, if_pos hv, if_pos hline, hargs]
  have hdecl : ∀ mods recv nm tp o x c rs body, (fset o).Line = (fset c).Line →
      (inspectFunc lib fset mods
          (some (.FuncDecl recv nm (.mk tp (some (.mk o [x] c)) rs) body))).1
        = mods ++ [⟨(fset o).Offset, (fset c).Offset + 1,
            "(\n  ".toList ++ fieldText lib fset x ++ ",\n)".toList⟩] := by
    intro mods recv nm tp o x c rs body hline
    have h1 : ¬ ([x] : List Field).length = 0 := by simp
    simp only [inspectFunc, if_neg h1, if_pos hline, hparams]
  refine ⟨hcall, hdecl, ?_, ?_, ?_, ?_⟩
  · intro mods names tp o x c rs hline
    have h1 : ¬ ([x] : List Field).length = 0 := by simp
    simp only [interfaceMethods, if_neg h1, if_pos hline, hparams]
  · intro f fn l x e r hn hl hr hline
    apply mem_collect_of_node lib fset f _ _ hn
    rw [hcall [] fn l x e r hl hr hline]; simp
  · intro f recv nm tp o x c rs body hn hline
    apply mem_collect_of_node lib fset f _ _ hn
    rw [hdecl [] recv nm tp o x c rs body hline]; simp
  · intro f ob methods cb names tp o x c rs hn hmem hline
    apply mem_collect_of_node lib fset f _ _ hn
    simp only [inspectFunc]
    rw [← hparams]
    exact mem_interfaceMethods lib fset names tp rs o c [x] (by simp) hline methods hmem

/-- Witness of C13: the call `g(1)` of `var x = f(g(1          ))` (parentheses
at positions 23 and 35, both on line 3) and the parameter list of the
declaration `func f(a int)` (parentheses at positions 18 and 24, on line 3). -/
theorem single_element_list_edited_witness :
    (inspectFunc goLib (fileSetOf srcSpaced) []
        (some (.CallExpr (.Ident 22 "g".toList) 23 [.BasicLit 24 "1".toList] 0 35))).1
      = [⟨22, 35, "(\n  1,\n)".toList⟩] ∧
    (inspectFunc goLib (fileSetOf "package p\n\nfunc f(a int)\n".toList) []
        (some (.FuncDecl none (.Ident 17 "f".toList)
          (.mk none (some (.mk 18 [.mk [.Ident 19 "a".toList] (.Ident 21 "int".toList)] 24))
            none) none))).1
      = [⟨17, 24, "(\n  a int,\n)".toList⟩] :=
  ⟨(single_element_list_edited goLib (fileSetOf srcSpaced)).1 [] (.Ident 22 "g".toList) 23
      (.BasicLit 24 "1".toList) 0 35 (by decide) (by decide) (by decide),
   (single_element_list_edited goLib (fileSetOf "package p\n\nfunc f(a int)\n".toList)).2.1 []
      none (.Ident 17 "f".toList) none 18
      (.mk [.Ident 19 "a".toList] (.Ident 21 "int".toList)) 24 none none (by decide)⟩

/-- C14 (edit range): in a tree whose lists have their closing parenthesis
at or after the opening one, every collected edit belongs to a candidate: its
start is the offset of the opening parenthesis, its end the offset of the
closing parenthesis plus one, so `start < end`, and the offsets in
`[start, end)` are those from the opening through the closing parenthesis. -/
theorem edit_range_covers_list (lib : Lib) (fset : FileSet) (f : Node)
    (hord : ∀ l ∈ (allNodes f).flatMap listsOf,
      (fset l.Opening).Offset ≤ (fset l.Closing).Offset) :
    ∀ m ∈ collect lib fset f, ∃ l ∈ candidates fset f,
      m.start = (fset l.Opening).Offset ∧ m.end_ = (fset l.Closing).Offset + 1 ∧
      m.start < m.end_ ∧
      ∀ i, (m.start ≤ i ∧ i < m.end_) ↔
        ((fset l.Opening).Offset ≤ i ∧ i ≤ (fset l.Closing).Offset) := by
  intro m hm
  have hmem : (m.start, m.end_) ∈ (candidates fset f).map (rangeOf fset) := by
    rw [← collect_ranges_eq_candidates lib fset f]
    exact List.mem_map.mpr ⟨m, hm, rfl⟩
  obtain ⟨l, hl, hrange⟩ := List.mem_map.mp hmem
  have hl2 : l ∈ (allNodes f).flatMap listsOf := by
    unfold candidates at hl
    exact (List.mem_filter.mp hl).1
  have ho := hord l hl2
  simp only [rangeOf, Prod.mk.injEq] at hrange
  refine ⟨l, hl, hrange.1.symm, hrange.2.symm, by omega, ?_⟩
  intro i
  constructor
  · intro h; omega
  · intro h; omega

/-- Witness of C14: the declaration `func f(a, b int, c string)`, whose one
edit is `[17, 37)`. -/
theorem edit_range_covers_list_witness :
    (∀ l ∈ (allNodes astGrouped).flatMap listsOf,
      (fileSetOf srcGrouped l.Opening).Offset ≤ (fileSetOf srcGrouped l.Closing).Offset) ∧
    (⟨17, 37, "(\n  a, b int,\n  c string,\n)".toList⟩ : modification)
      ∈ collect goLib (fileSetOf srcGrouped) astGrouped ∧
    ∃ l ∈ candidates (fileSetOf srcGrouped) astGrouped,
      17 = (fileSetOf srcGrouped l.Opening).Offset ∧
      37 = (fileSetOf srcGrouped l.Closing).Offset + 1 ∧ 17 < 37 ∧
      ∀ i, (17 ≤ i ∧ i < 37) ↔
        ((fileSetOf srcGrouped l.Opening).Offset ≤ i ∧
          i ≤ (fileSetOf srcGrouped l.Closing).Offset) :=
  ⟨by decide, by decide,
   edit_range_covers_list goLib (fileSetOf srcGrouped) astGrouped (by decide)
     ⟨17, 37, "(\n  a, b int,\n  c string,\n)".toList⟩ (by decide)⟩

/-! ## The line breaks of a replacement -/

theorem count_elementLines (texts : List Text) (h : ∀ t ∈ texts, '\n' ∉ t) :
    (texts.flatMap elementLine).count '\n' = texts.length := by
  induction texts with
  | nil => simp
  | cons t ts ih =>
    have ht : t.count '\n' = 0 := List.count_eq_zero.mpr (h t (List.mem_cons_self _ _))
    have hts := ih (fun x hx => h x (List.mem_cons_of_mem _ hx))
    simp only [List.flatMap_cons, List.count_append, hts, elementLine, ht, List.length_cons]
    have h1 : ("  ".toList).count '\n' = 0 := by decide
    have h2 : (",\n".toList).count '\n' = 1 := by decide
    omega

theorem onePerLine_lines (texts : List Text) (h : ∀ t ∈ texts, '\n' ∉ t) :
    (onePerLine texts).count '\n' = texts.length + 1 ∧
    (onePerLine texts).head? = some '(' ∧
    (onePerLine texts).getLast? = some ')' ∧
    ∀ before after : Text,
      (fileSetOf (before ++ onePerLine texts ++ after)
          (before.length + (onePerLine texts).length)).Line
        = (fileSetOf (before ++ onePerLine texts ++ after) (before.length + 1)).Line
          + texts.length + 1 := by
  have hbody := count_elementLines texts h
  have hform : onePerLine texts = ("(\n".toList ++ texts.flatMap elementLine) ++ [')'] := rfl
  have hcount : ("(\n".toList ++ texts.flatMap elementLine).count '\n' = texts.length + 1 := by
    rw [List.count_append, hbody]
    have h1 : ("(\n".toList).count '\n' = 1 := by decide
    omega
  have hlen : (onePerLine texts).length
      = ("(\n".toList ++ texts.flatMap elementLine).length + 1 := by
    rw [hform, List.length_append]; rfl
  refine ⟨?_, rfl, ?_, ?_⟩
  · rw [hform, List.count_append, hcount]
    have h1 : ([')'] : List Char).count '\n' = 0 := by decide
    omega
  · rw [hform, List.getLast?_append]; rfl
  · intro before after
    have hclose : ¬ (before.length + (onePerLine texts).length = 0 ∨
        (before ++ onePerLine texts ++ after).length + 1
          < before.length + (onePerLine texts).length) := by
      simp only [List.length_append]; omega
    have hopen : ¬ (before.length + 1 = 0 ∨
        (before ++ onePerLine texts ++ after).length + 1 < before.length + 1) := by
      simp only [List.length_append]; omega
    have htake1 : (before ++ onePerLine texts ++ after).take (before.length + 1 - 1)
        = before := by
      rw [Nat.add_sub_cancel, List.append_assoc, List.take_left]
    have htake2 : (before ++ onePerLine texts ++ after).take
        (before.length + (onePerLine texts).length - 1)
        = before ++ ("(\n".toList ++ texts.flatMap elementLine) := by
      have hidx : before.length + (onePerLine texts).length - 1
          = (before ++ ("(\n".toList ++ texts.flatMap elementLine)).length := by
        rw [hlen]; simp only [List.length_append]; omega
      rw [hidx, hform]
      have hre : before ++ (("(\n".toList ++ texts.flatMap elementLine) ++ [')']) ++ after
          = (before ++ ("(\n".toList ++ texts.flatMap elementLine)) ++ ([')'] ++ after) := by
        simp only [List.append_assoc]
      rw [hre, List.take_left]
    simp only [fileSetOf, if_neg hclose, if_neg hopen, htake1, htake2, List.count_append, hcount]
    omega

/-- C15 (replacement is never single-line): when no element text holds a line
break, the replacement of a call with `n` arguments, and of a parameter list
with `n` groups, holds `n + 1` line breaks, starts with `(` and ends with `)`;
wherever it is spliced in, its closing parenthesis is `n + 1` lines below its
opening one, so the two are not on the same line. -/
theorem replacement_spans_lines (lib : Lib) (fset : FileSet) (args : List Node)
    (list : List Field) :
    ((∀ a ∈ args, '\n' ∉ argText lib fset a) →
      (newArgs lib fset args).count '\n' = args.length + 1 ∧
      (newArgs lib fset args).head? = some '(' ∧
      (newArgs lib fset args).getLast? = some ')' ∧
      ∀ before after : Text,
        (fileSetOf (before ++ newArgs lib fset args ++ after)
            (before.length + (newArgs lib fset args).length)).Line
          = (fileSetOf (before ++ newArgs lib fset args ++ after) (before.length + 1)).Line
            + args.length + 1) ∧
    ((∀ x ∈ list, '\n' ∉ fieldText lib fset x) →
      (newParams lib fset list).count '\n' = list.length + 1 ∧
      (newParams lib fset list).head? = some '(' ∧
      (newParams lib fset list).getLast? = some ')' ∧
      ∀ before after : Text,
        (fileSetOf (before ++ newParams lib fset list ++ after)
            (before.length + (newParams lib fset list).length)).Line
          = (fileSetOf (before ++ newParams lib fset list ++ after) (before.length + 1)).Line
            + list.length + 1) := by
  have h1 : newArgs lib fset args = onePerLine (args.map (argText lib fset)) := by
    simp [newArgs, onePerLine, writeArgs_eq]
  have h2 : newParams lib fset list = onePerLine (list.map (fieldText lib fset)) := by
    simp [newParams, onePerLine, writeFields_eq]
  constructor
  · intro h
    have := onePerLine_lines (args.map (argText lib fset))
      (by intro t ht; obtain ⟨a, ha, rfl⟩ := List.mem_map.mp ht; exact h a ha)
    rw [List.length_map] at this
    rw [h1]; exact this
  · intro h
    have := onePerLine_lines (list.map (fieldText lib fset))
      (by intro t ht; obtain ⟨a, ha, rfl⟩ := List.mem_map.mp ht; exact h a ha)
    rw [List.length_map] at this
    rw [h2]; exact this

/-- Witness of C15: the two arguments `a` and `xs` and the two parameter
groups `a, b int` and `c string`; each replacement holds three line breaks. -/
theorem replacement_spans_lines_witness :
    (∀ a ∈ [Node.Ident 22 "a".toList, Node.Ident 25 "xs".toList],
      '\n' ∉ argText goLib (fileSetOf srcVariadic) a) ∧
    (newArgs goLib (fileSetOf srcVariadic)
      [.Ident 22 "a".toList, .Ident 25 "xs".toList]).count '\n' = 3 ∧
    (∀ x ∈ paramsGrouped, '\n' ∉ fieldText goLib (fileSetOf srcGrouped) x) ∧
    (newParams goLib (fileSetOf srcGrouped) paramsGrouped).count '\n' = 3 :=
  ⟨by decide,
   ((replacement_spans_lines goLib (fileSetOf srcVariadic)
      [.Ident 22 "a".toList, .Ident 25 "xs".toList] []).1 (by decide)).1,
   by decide,
   ((replacement_spans_lines goLib (fileSetOf srcGrouped) [] paramsGrouped).2 (by decide)).1⟩

/-! ## Nested and variadic calls -/

/-- C16 (splice bounds safety), evaluated on `var x = f(g(1          ))`: the
inner edit `[22, 35)` shortens the text from 37 to 32 bytes, the outer edit
`[20, 36)` then takes `newSrc[36:]` from a text of 32 bytes, and the loop
panics: `processFile` ends in a run-time panic. -/
theorem spaced_nested_call_panics :
    collect goLib (fileSetOf srcSpaced) astSpaced
      = [⟨20, 36, "(\n  g(1),\n)".toList⟩, ⟨22, 35, "(\n  1,\n)".toList⟩] ∧
    (spliceStep srcSpaced ⟨22, 35, "(\n  1,\n)".toList⟩).map List.length = some 32 ∧
    splice srcSpaced (collect goLib (fileSetOf srcSpaced) astSpaced) = none ∧
    processFile goLib (some srcSpaced) = [.ReadFile, .ParseFile srcSpaced, .Panic] := by
  decide

/-- C17 (the call replacement depends on the arguments only): the edit of a
call does not depend on its `Fun` and `Ellipsis` fields; argument lists with
the same printed texts give the same replacement; the text of the last
argument is followed by a comma, a line break and `)`; for `f(a, xs...)` the
replacement is the block with the lines `a,` and `xs,`, without the `...`. -/
theorem call_replacement_from_args (lib : Lib) (fset : FileSet) :
    (∀ mods fn1 fn2 l args e1 e2 r,
      inspectFunc lib fset mods (some (.CallExpr fn1 l args e1 r))
        = inspectFunc lib fset mods (some (.CallExpr fn2 l args e2 r))) ∧
    (∀ args1 args2 : List Node, args1.map (lib.Fprint fset) = args2.map (lib.Fprint fset) →
      newArgs lib fset args1 = newArgs lib fset args2) ∧
    (∀ (front : List Node) (last : Node),
      newArgs lib fset (front ++ [last])
        = writeArgs lib fset "(\n".toList front ++ "  ".toList
            ++ lib.TrimSpace (lib.Fprint fset last) ++ ",\n)".toList) ∧
    collect goLib (fileSetOf srcVariadic) astVariadic
      = [⟨20, 30, "(\n  a,\n  xs,\n)".toList⟩] := by
  refine ⟨?_, ?_, ?_, by decide⟩
  · intro mods fn1 fn2 l args e1 e2 r
    simp only [inspectFunc]
  · intro args1 args2 h
    have hmap : args1.map (argText lib fset) = args2.map (argText lib fset) := by
      have h1 : ∀ l : List Node, l.map (argText lib fset)
          = (l.map (lib.Fprint fset)).map lib.TrimSpace := by
        intro l; simp [argText, List.map_map, Function.comp]
      rw [h1, h1, h]
    simp only [newArgs, writeArgs_eq, hmap]
  · intro front last
    simp [newArgs, writeArgs_eq, List.flatMap_append, argText, elementLine]

/-- Witness of C17: the calls `f(a, xs...)` and `f(a, xs)` have the same
printed arguments and the same replacement. -/
theorem call_replacement_from_args_witness :
    newArgs goLib (fileSetOf srcVariadic) [.Ident 22 "a".toList, .Ident 25 "xs".toList]
      = newArgs goLib (fileSetOf srcVariadic) [.BasicLit 1 "a".toList, .Ident 4 "xs".toList] ∧
    inspectFunc goLib (fileSetOf srcVariadic) []
        (some (.CallExpr (.Ident 20 "f".toList) 21
          [.Ident 22 "a".toList, .Ident 25 "xs".toList] 27 30))
      = inspectFunc goLib (fileSetOf srcVariadic) []
        (some (.CallExpr (.Ident 20 "f".toList) 21
          [.Ident 22 "a".toList, .Ident 25 "xs".toList] 0 30)) :=
  ⟨(call_replacement_from_args goLib (fileSetOf srcVariadic)).2.1 _ _ rfl,
   (call_replacement_from_args goLib (fileSetOf srcVariadic)).1 [] _ _ 21 _ 27 0 30⟩

/-! ## Directory mode -/

mutual
theorem listedOf_above (join : Text → Text → Text) (d : Text) :
    ∀ (e : FsEntry) (path : Text) (above : List Text) (x : Listed),
      x ∈ listedOf join path above e → d ∈ above → d ∈ x.above
  | .file _, path, above, x, hx, hd => by
    simp only [listedOf, List.mem_singleton] at hx
    subst hx; exact hd
  | .noLstat _, path, above, x, hx, hd => by
    simp only [listedOf, List.mem_singleton] at hx
    subst hx; exact hd
  | .noList _, path, above, x, hx, hd => by
    simp only [listedOf, List.mem_singleton] at hx
    subst hx; exact hd
  | .dir name entries, path, above, x, hx, hd => by
    simp only [listedOf, List.mem_cons] at hx
    rcases hx with hx | hx
    · subst hx; exact hd
    · exact listedOfNames_above join d entries path (above ++ [name]) x hx
        (List.mem_append_left _ hd)
theorem listedOfNames_above (join : Text → Text → Text) (d : Text) :
    ∀ (es : List FsEntry) (path : Text) (above : List Text) (x : Listed),
      x ∈ listedOfNames join path above es → d ∈ above → d ∈ x.above
  | [], path, above, x, hx, hd => by simp [listedOfNames] at hx
  | e :: rest, path, above, x, hx, hd => by
    simp only [listedOfNames, List.mem_append] at hx
    rcases hx with hx | hx
    · exact listedOf_above join d e _ above x hx hd
    · exact listedOfNames_above join d rest path above x hx hd
end

theorem contains_vendor_iff (above : List Text) :
    above.contains "vendor".toList = true ↔ "vendor".toList ∈ above := by
  simp

theorem below_vendor_nothing (join : Text → Text → Text) (es : List FsEntry) (path : Text)
    (above : List Text) (hv : "vendor".toList ∈ above) :
    (listedOfNames join path above es).filter Listed.wanted = [] ∧
    (listedOfNames join path above es).any Listed.failsReached = false := by
  constructor
  · rw [List.filter_eq_nil_iff]
    intro x hx
    have hc := (contains_vendor_iff x.above).mpr
      (listedOfNames_above join _ es path above x hx hv)
    simp only [Listed.wanted, hc, Bool.not_true, Bool.and_false]
    exact Bool.false_ne_true
  · rw [List.any_eq_false]
    intro x hx
    have hc := (contains_vendor_iff x.above).mpr
      (listedOfNames_above join _ es path above x hx hv)
    simp only [Listed.failsReached, hc, Bool.not_true, Bool.and_false]
    exact Bool.false_ne_true

theorem walkFunc_file (files : List Text) (p name : Text) :
    walkFunc files p (some ⟨name, false⟩) false
      = (if HasSuffix p ".go".toList then files ++ [p] else files, none) := by
  simp only [walkFunc]
  split_ifs <;> simp_all

theorem walkFunc_dir (files : List Text) (p name : Text) :
    walkFunc files p (some ⟨name, true⟩) false
      = (files, if name = "vendor".toList then some .SkipDir else none) := by
  simp only [walkFunc]
  split_ifs <;> simp_all

theorem walkFunc_err (files : List Text) (p : Text) (info : Option FileInfo) :
    walkFunc files p info true = (files, some .failure) := by
  simp [walkFunc]

theorem failsReached_failing (path : Text) (above : List Text)
    (hv : "vendor".toList ∉ above) :
    Listed.failsReached ⟨path, .failing, above⟩ = true := by
  have hc : above.contains "vendor".toList = false := by
    rw [← Bool.not_eq_true, contains_vendor_iff]; exact hv
  simp only [Listed.failsReached, hc]
  rfl

theorem wanted_nonDir (path : Text) (above : List Text) (hv : "vendor".toList ∉ above) :
    Listed.wanted ⟨path, .nonDir, above⟩ = HasSuffix path ".go".toList := by
  have hc : above.contains "vendor".toList = false := by
    rw [← Bool.not_eq_true, contains_vendor_iff]; exact hv
  simp only [Listed.wanted, hc]
  cases HasSuffix path ".go".toList <;> rfl

mutual
theorem walk_walkFunc (join : Text → Text → Text) :
    ∀ (e : FsEntry) (s : List Text) (path : Text) (above : List Text),
      "vendor".toList ∉ above →
      ((listedOf join path above e).any Listed.failsReached = true →
        (walk join walkFunc s path e).2 = some .failure) ∧
      ((listedOf join path above e).any Listed.failsReached = false →
        walk join walkFunc s path e
          = (s ++ ((listedOf join path above e).filter Listed.wanted).map Listed.path,
              if e.IsDir && e.name == "vendor".toList then some .SkipDir else none))
  | .file name, s, path, above, hv => by
    constructor
    · intro h
      simp [listedOf, Listed.failsReached] at h
    · intro _
      simp only [walk, walkFunc_file, listedOf, List.filter_cons, wanted_nonDir _ _ hv,
        List.filter_nil, FsEntry.IsDir, Bool.false_and]
      by_cases hs : HasSuffix path ".go".toList = true
      · simp only [if_pos hs, List.map_cons, List.map_nil, Bool.false_eq_true, if_false]
      · simp only [if_neg hs, List.map_nil, List.append_nil, Bool.false_eq_true, if_false]
  | .noLstat name, s, path, above, hv => by
    constructor
    · intro _
      simp only [walk, walkFunc_err]
    · intro h
      simp only [listedOf, List.any_cons, failsReached_failing _ _ hv, Bool.true_or] at h
      exact absurd h (by decide)
  | .noList name, s, path, above, hv => by
    constructor
    · intro _
      simp only [walk, walkFunc_err]
    · intro h
      simp only [listedOf, List.any_cons, failsReached_failing _ _ hv, Bool.true_or] at h
      exact absurd h (by decide)
  | .dir name entries, s, path, above, hv => by
    have hhead : Listed.failsReached ⟨path, .directory, above⟩ = false := by
      simp [Listed.failsReached]
    have hheadw : Listed.wanted ⟨path, .directory, above⟩ = false := by
      simp [Listed.wanted]
    by_cases hname : name = "vendor".toList
    · have hbelow := below_vendor_nothing join entries path (above ++ [name])
        (by rw [hname]; simp)
      constructor
      · intro h
        simp only [listedOf, List.any_cons, hhead, Bool.false_or, hbelow.2] at h
        exact absurd h Bool.false_ne_true
      · intro _
        simp only [walk, walkFunc_dir, if_pos hname, listedOf, List.filter_cons, hheadw,
          hbelow.1, FsEntry.IsDir, FsEntry.name, Bool.true_and]
        simp [hname]
    · have hv2 : "vendor".toList ∉ above ++ [name] := by
        intro h
        rcases List.mem_append.mp h with h | h
        · exact hv h
        · simp only [List.mem_singleton] at h; exact hname h.symm
      have ih := walkNames_walkFunc join entries s path (above ++ [name]) hv2
      have hne : (name == "vendor".toList) = false := by
        simpa using hname
      constructor
      · intro h
        simp only [listedOf, List.any_cons, hhead, Bool.false_or] at h
        simp only [walk, walkFunc_dir, if_neg hname]
        exact ih.1 h
      · intro h
        simp only [listedOf, List.any_cons, hhead, Bool.false_or] at h
        simp only [walk, walkFunc_dir, if_neg hname, listedOf, List.filter_cons, hheadw,
          FsEntry.IsDir, FsEntry.name, Bool.true_and, hne]
        rw [ih.2 h]
        simp
theorem walkNames_walkFunc (join : Text → Text → Text) :
    ∀ (es : List FsEntry) (s : List Text) (path : Text) (above : List Text),
      "vendor".toList ∉ above →
      ((listedOfNames join path above es).any Listed.failsReached = true →
        (walkNames join walkFunc s path es).2 = some .failure) ∧
      ((listedOfNames join path above es).any Listed.failsReached = false →
        walkNames join walkFunc s path es
          = (s ++ ((listedOfNames join path above es).filter Listed.wanted).map Listed.path,
              none))
  | [], s, path, above, hv => by
    simp [listedOfNames, walkNames]
  | .noLstat name :: rest, s, path, above, hv => by
    constructor
    · intro _
      simp only [walkNames, walkFunc_err]
    · intro h
      simp only [listedOfNames, listedOf, List.any_append, List.any_cons,
        failsReached_failing _ _ hv, Bool.true_or] at h
      exact absurd h (by decide)
  | .file name :: rest, s, path, above, hv => by
    have ihe := walk_walkFunc join (.file name) s (join path name) above hv
    have hnone : (listedOf join (join path name) above (.file name)).any Listed.failsReached
        = false := by
      simp [listedOf, Listed.failsReached]
    have hw := ihe.2 hnone
    simp only [FsEntry.IsDir, Bool.false_and, Bool.false_eq_true, if_false] at hw
    have ihr := walkNames_walkFunc join rest
      (s ++ ((listedOf join (join path name) above (.file name)).filter Listed.wanted).map
        Listed.path) path above hv
    constructor
    · intro h
      simp only [listedOfNames, FsEntry.name, List.any_append, hnone, Bool.false_or] at h
      simp only [walkNames, hw]
      exact ihr.1 h
    · intro h
      simp only [listedOfNames, FsEntry.name, List.any_append, hnone, Bool.false_or] at h
      simp only [walkNames, hw, listedOfNames, FsEntry.name]
      rw [ihr.2 h]
      simp
  | .dir name entries :: rest, s, path, above, hv => by
    have ihe := walk_walkFunc join (.dir name entries) s (join path name) above hv
    cases hany : (listedOf join (join path name) above (.dir name entries)).any
        Listed.failsReached with
    | true =>
      have hf := ihe.1 hany
      constructor
      · intro _
        cases hres : walk join walkFunc s (join path name) (.dir name entries) with
        | mk s1 r =>
          rw [hres] at hf
          simp only at hf
          subst hf
          simp only [walkNames, hres]
      · intro h
        simp only [listedOfNames, FsEntry.name, List.any_append, hany, Bool.true_or] at h
        exact absurd h (by decide)
    | false =>
      have hw := ihe.2 hany
      have ihr := walkNames_walkFunc join rest
        (s ++ ((listedOf join (join path name) above (.dir name entries)).filter
          Listed.wanted).map Listed.path) path above hv
      have hstep : walkNames join walkFunc s path (.dir name entries :: rest)
          = walkNames join walkFunc
              (s ++ ((listedOf join (join path name) above (.dir name entries)).filter
                Listed.wanted).map Listed.path) path rest := by
        simp only [walkNames, hw]
        split_ifs <;> rfl
      constructor
      · intro h
        simp only [listedOfNames, FsEntry.name, List.any_append, hany, Bool.false_or] at h
        rw [hstep]
        exact ihr.1 h
      · intro h
        simp only [listedOfNames, FsEntry.name, List.any_append, hany, Bool.false_or] at h
        rw [hstep, ihr.2 h]
        simp [listedOfNames, FsEntry.name]
  | .noList name :: rest, s, path, above, hv => by
    constructor
    · intro _
      simp only [walkNames, walk, walkFunc_err]
    · intro h
      simp only [listedOfNames, listedOf, List.any_append, List.any_cons,
        failsReached_failing _ _ hv, Bool.true_or] at h
      exact absurd h (by decide)
end

/-- C12 (vendor exclusion): in directory mode `main` exits when an entry
outside every `vendor` directory cannot be read; otherwise the collected list is,
in the order of the walk, exactly the paths of the entries that are not a
directory, end in `.go` and have no directory named `vendor` on the way from
the root, the root included.  In the example tree the files below both `vendor`
directories are left out and `vendor.go` is collected. -/
theorem vendor_excluded (join : Text → Text → Text) (root : Text) (tree : FsEntry) :
    collectFiles join root true tree
      = (if failsOutsideVendor join root tree then none
         else some (goFilesOutsideVendor join root tree)) ∧
    (∀ files, collectFiles join root true tree = some files →
      ∀ p ∈ files, ∃ e ∈ listedOf join root [] tree,
        e.path = p ∧ e.kind = .nonDir ∧ HasSuffix p ".go".toList = true ∧
          "vendor".toList ∉ e.above) ∧
    collectFiles slashJoin "proj".toList true treeProject
      = some ["proj/a.go".toList, "proj/pkg/b.go".toList, "proj/vendor.go".toList] := by
  have hspec := walk_walkFunc join tree [] root [] (by simp)
  have hmain : collectFiles join root true tree
      = (if failsOutsideVendor join root tree then none
         else some (goFilesOutsideVendor join root tree)) := by
    unfold failsOutsideVendor goFilesOutsideVendor
    cases hany : (listedOf join root [] tree).any Listed.failsReached with
    | true =>
      have hf := hspec.1 hany
      cases hres : walk join walkFunc [] root tree with
      | mk s1 r =>
        rw [hres] at hf
        simp only at hf
        subst hf
        simp [collectFiles, Walk, hres]
    | false =>
      have hw := hspec.2 hany
      cases hcond : (tree.IsDir && tree.name == "vendor".toList) with
      | true =>
        rw [hcond] at hw
        simp only [if_true, List.nil_append] at hw
        simp [collectFiles, Walk, hw]
      | false =>
        rw [hcond] at hw
        simp only [Bool.false_eq_true, if_false, List.nil_append] at hw
        simp [collectFiles, Walk, hw]
  refine ⟨hmain, ?_, by decide⟩
  intro files hfiles p hp
  rw [hmain] at hfiles
  split_ifs at hfiles
  simp only [Option.some.injEq] at hfiles
  subst hfiles
  unfold goFilesOutsideVendor at hp
  obtain ⟨e, he, rfl⟩ := List.mem_map.mp hp
  obtain ⟨hmem, hwanted⟩ := List.mem_filter.mp he
  simp only [Listed.wanted, Bool.and_eq_true, beq_iff_eq, Bool.not_eq_true'] at hwanted
  refine ⟨e, hmem, rfl, hwanted.1.1, hwanted.1.2, ?_⟩
  intro hin
  have := (contains_vendor_iff e.above).mpr hin
  rw [hwanted.2] at this
  exact absurd this (by decide)

/-- Witness of C12: in the example tree the collected `proj/pkg/b.go` is an
entry that is not a directory, below `proj` and `pkg` only. -/
theorem vendor_excluded_witness :
    collectFiles slashJoin "proj".toList true treeProject
      = some ["proj/a.go".toList, "proj/pkg/b.go".toList, "proj/vendor.go".toList] ∧
    ∃ e ∈ listedOf slashJoin "proj".toList [] treeProject,
      e.path = "proj/pkg/b.go".toList ∧ e.kind = .nonDir ∧
        HasSuffix "proj/pkg/b.go".toList ".go".toList = true ∧ "vendor".toList ∉ e.above :=
  ⟨by decide,
   (vendor_excluded slashJoin "proj".toList treeProject).2.1
     ["proj/a.go".toList, "proj/pkg/b.go".toList, "proj/vendor.go".toList] (by decide)
     "proj/pkg/b.go".toList (by decide)⟩

end Argnewline
